import Mathlib

/-!
Synthetic exposure fusion (`synef.cpp`): a shallow embedding.

The C++ source works on OpenCV matrices.  The embedding keeps the control
structure of each function and makes the following representation choices.

* An 8-bit single-channel matrix that the code only reads through
  `reshape(0, 1)` / `LUT` is the flat list of its samples (`List Nat`, every
  sample below 256).
* `float`/`double` arithmetic is carried out in an ordered field `K`
  (exact arithmetic); the C library functions `exp`, `log`, `pow` are
  parameters of the definitions, so every definition is executable over `ℚ`,
  and the theorems instantiate them with the real functions.
* Operations whose code is not in `synef.cpp` (the guided filter of
  `guidedfilter.h`, OpenCV's border extrapolation, resizing and 8-bit luma
  conversion) are parameters.
-/

set_option autoImplicit false

namespace SynEF

/-! ## `extract` (synef.cpp, lines 109-144) -/

/-- The vector `temp` of lines 123-126: entry `i` is `tmp_endpoints*i + lums[0]`
(a small integer, stored exactly in a `float`). -/
def buildTemp (tmp_endpoints lums0 regions : Nat) : List Nat :=
  (List.range regions).map (fun i => tmp_endpoints * i + lums0)

/-- One pass of the inner loop body (lines 130-138) for level `i` and band `j`;
`t` is the current content of `table[i]`.  The store `table[i] = j` converts the
`int` `j` to `uchar`, i.e. reduces it modulo 256. -/
def tableStep (temp : List Nat) (regions i : Nat) (t j : Nat) : Nat :=
  let k := regions - j - 1
  if j = 0 then
    if temp.getD k 0 ≤ i then j % 256 else t
  else
    if temp.getD k 0 ≤ i ∧ i < temp.getD (k + 1) 0 then j % 256 else t

/-- The final content of `table[i]`: the inner loop `for j = 0 .. regions-1`
run on the zero-initialised entry. -/
def tableEntry (temp : List Nat) (regions i : Nat) : Nat :=
  (List.range regions).foldl (tableStep temp regions i) 0

/-- The 256-entry lookup table of lines 127-141. -/
def buildTable (temp : List Nat) (regions : Nat) : List Nat :=
  (List.range 256).map (tableEntry temp regions)

/-- The function `extract`.  `lum` is the flattened luminance image, the result
is the flattened label image.  `none` stands for the two executions that have no
defined result: indexing the sorted vector of an empty image, and the integer
division `diff / regions` by zero. -/
def extract (lum : List Nat) (regions : Nat) : Option (List Nat) :=
  let lums := lum.insertionSort (fun a b => a ≤ b)
  match lums.head?, lums.getLast? with
  | some lo, some hi =>
    if regions = 0 then none
    else
      let diff := hi - lo
      let tmp_endpoints := diff / regions
      let temp := buildTemp tmp_endpoints lo regions
      let table := buildTable temp regions
      some (lum.map (fun x => table.getD x 0))
  | _, _ => none

/-- Closed form of the table entry for level `x`: the band index that the loop
of lines 128-141 leaves in `table[x]` when `temp[k] = te*k + lo`
(see `tableEntry_eq`). -/
def bandOf (te lo R x : Nat) : Nat :=
  if lo ≤ x ∧ x < te * (R - 1) + lo then R - 1 - (x - lo) / te else 0

/-- The band boundary of the specification text, `min + bandWidth * j` with the
exact quotient `bandWidth = (max - min) / R`. -/
def exactBoundary (lo hi R j : Nat) : ℚ :=
  (lo : ℚ) + ((hi : ℚ) - (lo : ℚ)) / (R : ℚ) * (j : ℚ)

/-- The banding of the specification text for an image with minimum `lo` and
maximum `hi`: `extract` succeeds and every pixel either sits at the top boundary
with label 0 or lies in the exact-quotient band of its label. -/
def ExactBanding (lum : List Nat) (R lo hi : Nat) : Prop :=
  ∃ labels, extract lum R = some labels ∧
    ∀ (i : Nat) (h1 : i < lum.length) (h2 : i < labels.length),
      (lum[i] = hi ∧ labels[i] = 0) ∨
      (exactBoundary lo hi R (R - 1 - labels[i]) ≤ (lum[i] : ℚ) ∧
        (lum[i] : ℚ) < exactBoundary lo hi R (R - labels[i]))

/-- The condition under which the loop body of lines 130-138 stores to
`table[i]` for band `j` (the two `if` conditions of lines 132 and 136). -/
def branchFires (temp : List Nat) (regions i j : Nat) : Bool :=
  let k := regions - j - 1
  if j = 0 then decide (temp.getD k 0 ≤ i)
  else decide (temp.getD k 0 ≤ i ∧ i < temp.getD (k + 1) 0)

/-- The gap of the specification's design note: an image with minimum `lo` and
maximum `hi`, a region count `R` whose band width does not divide the range, and
a level `L` between `lo` and `hi` for which no pass of the table-building loop
stores to `table[L]`. -/
def HasTableGap : Prop :=
  ∃ (lum : List Nat) (R lo hi L : Nat),
    lum ≠ [] ∧ (∀ x ∈ lum, x < 256) ∧ 1 ≤ R ∧ lo ∈ lum ∧ hi ∈ lum ∧
    (∀ x ∈ lum, lo ≤ x ∧ x ≤ hi) ∧ ¬ ((hi - lo) / R ∣ (hi - lo)) ∧
    lo ≤ L ∧ L ≤ hi ∧
    ∀ j, j < R → branchFires (buildTemp ((hi - lo) / R) lo R) R L j = false

/-- How a call of `extract` ends: it returns with the label image written, it
is rejected (an error is reported before any processing; the source has no
statement that does this), or it runs into an operation without a defined result
at the given source line. -/
inductive Outcome where
  | labels (l : List Nat)
  | rejected
  | fault (line : Nat)
  deriving DecidableEq

/-- The function `extract` with the way it ends made explicit: the index
`lums[lums.size() - 1]` of line 121 on an empty vector, the integer division
`diff / regions` of line 122 by zero, or the normal return. -/
def extractOutcome (lum : List Nat) (regions : Nat) : Outcome :=
  let lums := lum.insertionSort (fun a b => a ≤ b)
  match lums.head?, lums.getLast? with
  | some lo, some hi =>
    if regions = 0 then Outcome.fault 122
    else
      let diff := hi - lo
      let tmp_endpoints := diff / regions
      let temp := buildTemp tmp_endpoints lo regions
      let table := buildTable temp regions
      Outcome.labels (lum.map (fun x => table.getD x 0))
  | _, _ => Outcome.fault 121

/-- The rejection of the specification text: with `R = 0` the call is rejected
before any processing. -/
def RejectsZeroRegions (lum : List Nat) : Prop :=
  extractOutcome lum 0 = Outcome.rejected

/-! ## Matrices -/

/-- An OpenCV matrix: its size and the sample stored at row `y`, column `x`. -/
@[ext]
structure Mat (α : Type) where
  rows : Nat
  cols : Nat
  px : Nat → Nat → α

/-- A three-channel sample. -/
@[ext]
structure Vec3 (α : Type) where
  c0 : α
  c1 : α
  c2 : α

/-- Apply a function to each of the three channels. -/
def Vec3.map {α β : Type} (f : α → β) (p : Vec3 α) : Vec3 β :=
  ⟨f p.c0, f p.c1, f p.c2⟩

/-- The pixel positions of a `rows × cols` matrix in row-major order. -/
def positions (rows cols : Nat) : List (Nat × Nat) :=
  (List.range rows).flatMap (fun y => (List.range cols).map (fun x => (y, x)))

/-- The samples of a single-channel matrix in row-major order
(`reshape(0, 1)` of a continuous matrix). -/
def Mat.toList {α : Type} (m : Mat α) : List α :=
  (positions m.rows m.cols).map (fun p => m.px p.1 p.2)

/-! ## `gamma` (synef.cpp, lines 92-106) -/

section Gamma

variable {K : Type} [LinearOrderedField K] [FloorRing K]

/-- OpenCV's `cvRound`: the nearest integer, ties going to the even one. -/
def cvRound (x : K) : Int :=
  let f := Int.floor x
  if x - (f : K) < 1 / 2 then f
  else if 1 / 2 < x - (f : K) then f + 1
  else if f % 2 = 0 then f else f + 1

/-- OpenCV's `saturate_cast<uchar>` on an integer. -/
def saturate_uchar (v : Int) : Nat :=
  if v < 0 then 0 else if 255 < v then 255 else v.toNat

/-- The lookup table of lines 101-104: entry `i` is
`saturate_cast<uchar>(pow(i / 255.0, g) * 255.0)`; `pw` is the C function `pow`. -/
def gammaTable (pw : K → K → K) (g : K) : List Nat :=
  (List.range 256).map (fun i : Nat => saturate_uchar (cvRound (pw ((i : K) / 255) g * 255)))

/-- One sample through an 8-bit lookup table (OpenCV `LUT`). -/
def LUT (table : List Nat) (v : Nat) : Nat := table.getD v 0

/-- The function `gamma`: the table is applied to every sample of the image. -/
def gamma (pw : K → K → K) (img : Mat (Vec3 Nat)) (g : K) : Mat (Vec3 Nat) :=
  let lookUpTable := gammaTable pw g
  { rows := img.rows, cols := img.cols, px := fun y x => (img.px y x).map (LUT lookUpTable) }

/-- The round trip of one level through the table for `g` and then the table
for `1/g`. -/
def gammaRoundTrip (pw : K → K → K) (g : K) (v : Nat) : Nat :=
  LUT (gammaTable pw (1 / g)) (LUT (gammaTable pw g) v)

end Gamma

/-! ## `expo_fuse` (synef.cpp, lines 14-89) -/

section Fuse

variable {K : Type} [LinearOrderedField K]

/-- The conversion of line 33-34: `convertTo(CV_32FC3)` followed by `/ 255`. -/
def normalise (img : Mat (Vec3 Nat)) (y x : Nat) : Vec3 K :=
  (img.px y x).map (fun v : Nat => (v : K) / 255)

/-- OpenCV `COLOR_RGB2GRAY` on floating-point samples. -/
def rgb2gray (p : Vec3 K) : K :=
  299 / 1000 * p.c0 + 587 / 1000 * p.c1 + 114 / 1000 * p.c2

/-- OpenCV `mean` of a single-channel matrix. -/
def matMean (rows cols : Nat) (f : Nat → Nat → K) : K :=
  ((positions rows cols).map (fun p => f p.1 p.2)).sum / ((rows * cols : Nat) : K)

/-- OpenCV `filter2D` with a 7×7 kernel anchored at its centre: the correlation
of the image with the kernel; `border len p` is the index that stands for the
position `p` of an axis of length `len` (border extrapolation). -/
def filter2D (border : Nat → Int → Nat) (rows cols : Nat) (f : Nat → Nat → K)
    (kernel : Nat → Nat → K) (y x : Nat) : K :=
  ((positions 7 7).map (fun p =>
    kernel p.1 p.2 *
      f (border rows ((y : Int) + (p.1 : Int) - 3)) (border cols ((x : Int) + (p.2 : Int) - 3)))).sum

/-- The kernel of line 56, `Mat::ones(7, 7, CV_32FC1)*(1 / 49)`: the factor
`1 / 49` is a quotient of two `int` literals. -/
def detailKernel (_i _j : Nat) : K := 1 * (((1 : Int) / 49 : Int) : K)

/-- The uniform averaging kernel of the specification text: 49 entries 1/49. -/
def averagingKernel (_i _j : Nat) : K := 1 / 49

/-- The detail weight of lines 59-60 for a filtered luminance `conved`
(`sig_d = 0.12`). -/
def detailWeightOf (expf : K → K) (conved : K) : K :=
  expf ((conved - 1 / 2) * (conved - 1 / 2) / (-2 * (12 / 100) * (12 / 100)))

/-- The per-element matrices pushed on `W_B`, `W_D`, `B` and `D`. -/
structure Layers (K : Type) where
  W_B : Nat → Nat → K
  W_D : Nat → Nat → K
  B : Nat → Nat → K
  D : Nat → Nat → Vec3 K

/-- The body of the first loop (lines 31-63) for one stack element.
`guidedFilter` is the edge-preserving smoothing operator (guide, input, radius,
eps), `expf` the exponential. -/
def layersOf (guidedFilter : Mat K → Mat K → K → K → (Nat → Nat → K))
    (border : Nat → Int → Nat) (expf : K → K) (pme_i : Mat (Vec3 Nat)) : Layers K :=
  let r : K := 12
  let eps : K := 25 / 100
  let sig_l : K := 1 / 2
  let img : Nat → Nat → Vec3 K := normalise pme_i
  let lum : Nat → Nat → K := fun y x => rgb2gray (img y x)
  let lumMat : Mat K := ⟨pme_i.rows, pme_i.cols, lum⟩
  let base := guidedFilter lumMat lumMat r eps
  let wl : Nat → Nat → K := fun y x =>
    expf ((base y x - 1 / 2) * (base y x - 1 / 2) / (-2 * sig_l * sig_l))
  let m := matMean pme_i.rows pme_i.cols lum
  let wg := expf ((m - 1 / 2) * (m - 1 / 2) / (-2 * sig_l * sig_l))
  let detail : Nat → Nat → Vec3 K := fun y x => (img y x).map (fun v => v - base y x)
  let conved := filter2D border pme_i.rows pme_i.cols lum detailKernel
  let wd : Nat → Nat → K := fun y x => detailWeightOf expf (conved y x)
  { W_B := fun y x => wl y x * wg, W_D := wd, B := base, D := detail }

/-- The accumulation of lines 65-69: `acc = W[0]`, then `add(acc, W[i], acc)`. -/
def sumLayers (w : Layers K → Nat → Nat → K) (l0 : Layers K) (ls : List (Layers K)) :
    Nat → Nat → K :=
  ls.foldl (fun acc l => fun y x => acc y x + w l y x) (w l0)

/-- The normalised weight of lines 74-75, `divide(W[i], w_s, w)`. -/
def normalisedWeight (w w_s : Nat → Nat → K) (y x : Nat) : K := w y x / w_s y x

/-- The contribution `wd + wb` that the blending loop (lines 73-84) adds to
`dst` for one element (`alpha = 1.1`). -/
def blendTerm (wb_s wd_s : Nat → Nat → K) (l : Layers K) (y x : Nat) : Vec3 K :=
  let alpha : K := 11 / 10
  let wb := normalisedWeight l.W_B wb_s y x
  let wd := normalisedWeight l.W_D wd_s y x
  (l.D y x).map (fun d => (wd * d) * alpha + wb * l.B y x)

/-- The blending loop: `dst` starts at zero and receives every element's term. -/
def blend (wb_s wd_s : Nat → Nat → K) (ls : List (Layers K)) : Nat → Nat → Vec3 K :=
  ls.foldl
    (fun dst l => fun y x =>
      let t := blendTerm wb_s wd_s l y x
      ⟨(dst y x).c0 + t.c0, (dst y x).c1 + t.c1, (dst y x).c2 + t.c2⟩)
    (fun _ _ => ⟨0, 0, 0⟩)

/-- The function `expo_fuse`.  `none` stands for the executions without a
defined result: an empty stack (`W_B[0]` does not exist), a stack with an empty
matrix (`cvtColor` rejects it) and a stack whose images differ in size (OpenCV's
element-wise operations reject it). -/
def expo_fuse (guidedFilter : Mat K → Mat K → K → K → (Nat → Nat → K))
    (border : Nat → Int → Nat) (expf : K → K) (pme : List (Mat (Vec3 Nat))) :
    Option (Mat (Vec3 K)) :=
  match pme with
  | [] => none
  | p0 :: ps =>
    if (p0 :: ps).any (fun p => p.rows = 0 ∨ p.cols = 0) then none
    else if ps.all (fun p => p.rows = p0.rows ∧ p.cols = p0.cols) then
      let l0 := layersOf guidedFilter border expf p0
      let ls := ps.map (layersOf guidedFilter border expf)
      let wb_s := sumLayers Layers.W_B l0 ls
      let wd_s := sumLayers Layers.W_D l0 ls
      some { rows := p0.rows, cols := p0.cols, px := blend wb_s wd_s (l0 :: ls) }
    else none

/-- Closed form of the weight totals `wb_s`, `wd_s`: the sum of the weight `w`
over all layers of the stack (see `sumLayers_apply`). -/
def totalWeight (w : Layers K → Nat → Nat → K) (ls : List (Layers K)) : Nat → Nat → K :=
  fun y x => (ls.map (fun l => w l y x)).sum

/-- Closed form of the fused image: per channel, the sum over the stack of the
blending terms (see `expo_fuse_cons`). -/
def fusedPx (ls : List (Layers K)) : Nat → Nat → Vec3 K :=
  fun y x =>
    ⟨(ls.map (fun l =>
        (blendTerm (totalWeight Layers.W_B ls) (totalWeight Layers.W_D ls) l y x).c0)).sum,
     (ls.map (fun l =>
        (blendTerm (totalWeight Layers.W_B ls) (totalWeight Layers.W_D ls) l y x).c1)).sum,
     (ls.map (fun l =>
        (blendTerm (totalWeight Layers.W_B ls) (totalWeight Layers.W_D ls) l y x).c2)).sum⟩

/-- The single-image identity of the specification text: fusing the stack
`[p]` returns, at every pixel and channel, the sum `B + D` of the base and
detail layers of `p`. -/
def SingleImageIdentity (guidedFilter : Mat K → Mat K → K → K → (Nat → Nat → K))
    (border : Nat → Int → Nat) (expf : K → K) (p : Mat (Vec3 Nat)) : Prop :=
  ∃ out, expo_fuse guidedFilter border expf [p] = some out ∧
    ∀ y x, out.px y x =
      ((layersOf guidedFilter border expf p).D y x).map
        (fun d => (layersOf guidedFilter border expf p).B y x + d)

end Fuse

/-! ## `synEFFromJNI` (synef.cpp, lines 147-294) -/

section Synthesis

variable {K : Type} [LinearOrderedField K] [FloorRing K]

/-- The luminance of lines 176-185 and 224-228: `cvtColor(COLOR_RGB2YUV)`, `split`,
channel 0.  `luma` is OpenCV's 8-bit Y value of one pixel. -/
def lumaChannel (luma : Vec3 Nat → Nat) (img : Mat (Vec3 Nat)) : Mat Nat :=
  ⟨img.rows, img.cols, fun y x => luma (img.px y x)⟩

/-- The call `extract(&lum, regions, &labels)` on a matrix: the samples are handed
over in row-major order and the labels are read back at the same positions. -/
def extractMat (lum : Mat Nat) (regions : Nat) : Option (Mat Nat) :=
  (extract lum.toList regions).map
    (fun l => ⟨lum.rows, lum.cols, fun y x => l.getD (y * lum.cols + x) 0⟩)

/-- The statement `lum += 1` of line 202 on an 8-bit matrix (saturating). -/
def addOneSat (lum : Mat Nat) : Mat Nat :=
  ⟨lum.rows, lum.cols, fun y x => min (lum.px y x + 1) 255⟩

/-- The accumulation loop of lines 204-213: the pair `(sums, count)`.  `logf` is
the C function `log`.  (A label is always below `regions`, so every update is in
range.) -/
def accumulate (logf : K → K) (lum labels : Mat Nat) (regions : Nat) : List K × List K :=
  (positions lum.rows lum.cols).foldl
    (fun s p =>
      let idx : K := ((lum.px p.1 p.2 : Nat) : K)
      let eps : K := 3 / 1000
      let m := max idx eps
      let v := logf m
      let l := labels.px p.1 p.2
      (s.1.set l (s.1.getD l 0 + v), s.2.set l (s.2.getD l 0 + 1)))
    (List.replicate regions 0, List.replicate regions 0)

/-- The divisor `count[i] + 0.003` of line 219. -/
def countDivisor (count : List K) (i : Nat) : K := count.getD i 0 + 3 / 1000

/-- The log-average `v` of line 219. -/
def logAverage (sums count : List K) (i : Nat) : K := sums.getD i 0 / countDivisor count i

/-- The enhancement factor `0.18 / exp(v)` of line 220. -/
def gainOf (expf : K → K) (sums count : List K) (i : Nat) : K :=
  18 / 100 / expf (logAverage sums count i)

/-- The vector `a` of lines 218-221. -/
def gains (expf : K → K) (sums count : List K) (regions : Nat) : List K :=
  (List.range regions).map (gainOf expf sums count)

/-- The scaled luminance `exp[i]` of lines 235-238. -/
def scaled (lum : Mat Nat) (a : K) : Nat → Nat → K :=
  fun y x => ((lum.px y x : Nat) : K) * a

/-- The maximum `max_v` that `minMaxIdx` returns (line 245); an empty matrix is
rejected. -/
def matMax (rows cols : Nat) (f : Nat → Nat → K) : Option K :=
  match (positions rows cols).map (fun p => f p.1 p.2) with
  | [] => none
  | v :: vs => some (vs.foldl max v)

/-- The body of the tone-mapping loop (lines 243-255) for one region.  The
expression `exp[i] / max_v` of a matrix by a scalar is evaluated by OpenCV as the
product with `1 / max_v`. -/
def toneMap (lum : Mat Nat) (E : Nat → Nat → K) : Option (Nat → Nat → K) :=
  (matMax lum.rows lum.cols E).map (fun max_v => fun y x =>
    let t1 := E y x * (1 / max_v) + 1
    let t2 := E y x / (E y x + 1)
    let t3 := t2 * t1
    let t4 : K := ((lum.px y x : Nat) : K)
    t3 / (t4 + 3 / 1000))

/-- The tone-mapping loop over all regions. -/
def toneMapAll (lum : Mat Nat) : List (Nat → Nat → K) → Option (List (Nat → Nat → K))
  | [] => some []
  | E :: Es =>
    match toneMap lum E, toneMapAll lum Es with
    | some t, some ts => some (t :: ts)
    | _, _ => none

/-- The body of the loop of lines 264-276: every channel times the tone map,
times 255, converted to 8 bits, and the inverse gamma table applied. -/
def synthesise (pw : K → K → K) (mprev : Mat (Vec3 Nat)) (g : K) (t : Nat → Nat → K) :
    Mat (Vec3 Nat) :=
  let temp3 : Mat (Vec3 Nat) :=
    ⟨mprev.rows, mprev.cols, fun y x =>
      (mprev.px y x).map (fun v : Nat => saturate_uchar (cvRound (((v : K) * t y x) * 255)))⟩
  gamma pw temp3 (1 / g)

/-- What `synEFFromJNI` has built when it calls the fusion step: the stack `pme`
and the caller's image `mprev` (which the function updates in place). -/
structure SynResult where
  pme : List (Mat (Vec3 Nat))
  mprev : Mat (Vec3 Nat)

/-- The function `synEFFromJNI` up to the call of the fusion step (line 287).
`pw`, `expf`, `logf` are the C functions `pow`, `exp`, `log`; `resize` is the
down-sampling of line 174 and `luma` the 8-bit Y value of a pixel. -/
def synEFFromJNI (pw : K → K → K) (expf logf : K → K)
    (resize : Mat (Vec3 Nat) → Mat (Vec3 Nat)) (luma : Vec3 Nat → Nat)
    (prev : Mat (Vec3 Nat)) (g : K) : Option SynResult :=
  let mprev := gamma pw prev g
  let small := resize mprev
  let lum := lumaChannel luma small
  let regions := 7
  match extractMat lum regions with
  | none => none
  | some labels =>
    let lum1 := addOneSat lum
    let sc := accumulate logf lum1 labels regions
    let a := gains expf sc.1 sc.2 regions
    let lumF := lumaChannel luma mprev
    let exps := a.map (scaled lumF)
    match toneMapAll lumF exps with
    | none => none
    | some tm =>
      let pme := tm.map (synthesise pw mprev g) ++ [mprev]
      some ⟨pme, gamma pw mprev (1 / g)⟩

end Synthesis

/-! ## Test inputs -/

/-- The `rows × cols` colour image whose three channels all hold `v`. -/
def uniformImage (rows cols v : Nat) : Mat (Vec3 Nat) :=
  ⟨rows, cols, fun _ _ => ⟨v, v, v⟩⟩

/-- A stand-in for the down-sampling `resize(mprev, small, Size(), 0.05, 0.05)`:
every 20th sample.  On a uniform image every interpolation method returns the
same matrix. -/
def downsample20 (m : Mat (Vec3 Nat)) : Mat (Vec3 Nat) :=
  ⟨m.rows / 20, m.cols / 20, fun y x => m.px (20 * y) (20 * x)⟩

/-- A stand-in for the 8-bit Y value of `COLOR_RGB2YUV`: the weights 0.299, 0.587,
0.114 in 14-bit fixed point.  On a gray pixel `(v, v, v)` it returns `v`. -/
def lumaY (p : Vec3 Nat) : Nat :=
  (4899 * p.c0 + 9617 * p.c1 + 1868 * p.c2 + 8192) / 16384

/-- The 1×5 luminance image with the samples 240, 247, 245, 245, 245. -/
def fiveSampleImage : Mat Nat :=
  ⟨1, 5, fun _ x => [240, 247, 245, 245, 245].getD x 0⟩

/-- The 1×2 luminance image with the samples 100 and 107. -/
def twoSampleImage : Mat Nat :=
  ⟨1, 2, fun _ x => [100, 107].getD x 0⟩

/-- The gain ordering of the specification text for a luminance image segmented
with seven regions: for any two non-empty bands `j < k` the gain of band `j` is
at most the gain of band `k`. -/
def BrighterBandGainLe (lum : Mat Nat) : Prop :=
  ∃ labels, extractMat lum 7 = some labels ∧
    ∀ j k, j < k → k < 7 →
      (∃ y x, y < lum.rows ∧ x < lum.cols ∧ labels.px y x = j) →
      (∃ y x, y < lum.rows ∧ x < lum.cols ∧ labels.px y x = k) →
      gainOf Real.exp (accumulate Real.log (addOneSat lum) labels 7).1
          (accumulate Real.log (addOneSat lum) labels 7).2 j ≤
        gainOf Real.exp (accumulate Real.log (addOneSat lum) labels 7).1
          (accumulate Real.log (addOneSat lum) labels 7).2 k

/-- Every channel of the pixel is within `tol` of `v`. -/
def ChannelsWithin (p : Vec3 Nat) (v tol : Nat) : Prop :=
  (v - tol ≤ p.c0 ∧ p.c0 ≤ v + tol) ∧ (v - tol ≤ p.c1 ∧ p.c1 ≤ v + tol) ∧
    (v - tol ≤ p.c2 ∧ p.c2 ≤ v + tol)

/-- The end-to-end scenario of the specification text: on the 100×100 uniform
image of level 128 with `g = 2.2` the stack has 8 elements and every channel of
every element is within 10 of 128. -/
def UniformGrayStackClose (resize : Mat (Vec3 Nat) → Mat (Vec3 Nat))
    (luma : Vec3 Nat → Nat) : Prop :=
  ∃ r, synEFFromJNI Real.rpow Real.exp Real.log resize luma (uniformImage 100 100 128)
        (11 / 5) = some r ∧
    r.pme.length = 8 ∧
    ∀ m ∈ r.pme, ∀ y x, y < m.rows → x < m.cols → ChannelsWithin (m.px y x) 128 10

/-! ## Theorems -/

/-! ### `extract` -/

theorem buildTemp_getD (te lo R k : Nat) (hk : k < R) :
    (buildTemp te lo R).getD k 0 = te * k + lo := by
  unfold buildTemp
  rw [List.getD_eq_getElem _ _ (by simpa using hk)]
  simp

theorem foldl_tableStep (te lo R i : Nat) (hR : 0 < te → R ≤ 256) :
    ∀ n, n ≤ R →
      (List.range n).foldl (tableStep (buildTemp te lo R) R i) 0 =
        if lo ≤ i ∧ i < te * (R - 1) + lo ∧ R - 1 - (i - lo) / te < n
        then R - 1 - (i - lo) / te else 0 := by
  intro n
  induction n with
  | zero => intro _; simp
  | succ n ih =>
    intro hn
    rw [List.range_succ, List.foldl_append, ih (by omega)]
    simp only [List.foldl_cons, List.foldl_nil]
    have hnR : n < R := hn
    unfold tableStep
    by_cases hn0 : n = 0
    · subst hn0
      simp only [if_true, Nat.zero_mod]
      have h1 : ¬ (R - 1 - (i - lo) / te < 0) := by omega
      simp only [h1, and_false, if_false]
      split_ifs <;> omega
    · simp only [hn0, if_false]
      rw [buildTemp_getD te lo R (R - n - 1) (by omega),
        buildTemp_getD te lo R (R - n - 1 + 1) (by omega)]
      by_cases hc : te * (R - n - 1) + lo ≤ i ∧ i < te * (R - n - 1 + 1) + lo
      · rw [if_pos hc]
        obtain ⟨hc1, hc2⟩ := hc
        have hte : 0 < te := by
          rcases Nat.eq_zero_or_pos te with h | h
          · subst h; simp at hc1 hc2; omega
          · exact h
        have hdiv : (i - lo) / te = R - n - 1 := by
          apply Nat.div_eq_of_lt_le
          · rw [Nat.mul_comm]; omega
          · show i - lo < (R - n - 1 + 1) * te
            rw [Nat.mul_comm]; omega
        have hlt : i < te * (R - 1) + lo := by
          have : te * (R - n - 1 + 1) ≤ te * (R - 1) := Nat.mul_le_mul_left _ (by omega)
          omega
        have hlo : lo ≤ i := by omega
        have hmod : n % 256 = n := Nat.mod_eq_of_lt (by have := hR hte; omega)
        rw [hdiv, hmod]
        have e : R - 1 - (R - n - 1) = n := by omega
        rw [e, if_pos ⟨hlo, hlt, by omega⟩]
      · rw [if_neg hc]
        by_cases hA : lo ≤ i ∧ i < te * (R - 1) + lo
        · obtain ⟨hlo, hlt⟩ := hA
          have hte : 0 < te := by
            rcases Nat.eq_zero_or_pos te with h | h
            · subst h; simp at hlt; omega
            · exact h
          have hq : (i - lo) / te < R - 1 := by
            rw [Nat.div_lt_iff_lt_mul hte, Nat.mul_comm]; omega
          have hne : R - 1 - (i - lo) / te ≠ n := by
            intro he
            apply hc
            have hk : (i - lo) / te = R - n - 1 := by omega
            have h1 := Nat.div_mul_le_self (i - lo) te
            have h2 := Nat.lt_div_mul_add (a := i - lo) hte
            rw [hk] at h1 h2
            constructor
            · rw [Nat.mul_comm]; omega
            · have : te * (R - n - 1 + 1) = (R - n - 1) * te + te := by ring
              omega
          by_cases hlt2 : R - 1 - (i - lo) / te < n
          · rw [if_pos ⟨hlo, hlt, hlt2⟩, if_pos ⟨hlo, hlt, by omega⟩]
          · rw [if_neg (by tauto), if_neg (by
              rintro ⟨_, _, h⟩; omega)]
        · rw [if_neg (by tauto), if_neg (by tauto)]

theorem tableEntry_eq (te lo R i : Nat) (hR1 : 1 ≤ R) (hR : 0 < te → R ≤ 256) :
    tableEntry (buildTemp te lo R) R i = bandOf te lo R i := by
  unfold tableEntry bandOf
  rw [foldl_tableStep te lo R i hR R le_rfl]
  by_cases h : lo ≤ i ∧ i < te * (R - 1) + lo
  · have hlt : R - 1 - (i - lo) / te < R :=
      Nat.lt_of_le_of_lt (Nat.sub_le _ _) (by omega)
    rw [if_pos h, if_pos ⟨h.1, h.2, hlt⟩]
  · rw [if_neg h, if_neg (by tauto)]


theorem sorted_head_le {l : List Nat} (hs : l.Sorted (fun a b => a ≤ b)) {lo : Nat}
    (h : l.head? = some lo) : lo ∈ l ∧ ∀ x ∈ l, lo ≤ x := by
  cases l with
  | nil => simp at h
  | cons a t =>
    simp only [List.head?_cons, Option.some.injEq] at h
    subst h
    refine ⟨List.mem_cons_self _ _, ?_⟩
    intro x hx
    rcases List.mem_cons.mp hx with rfl | hx
    · exact le_rfl
    · exact List.rel_of_sorted_cons hs x hx

theorem sorted_le_getLast {l : List Nat} (hs : l.Sorted (fun a b => a ≤ b)) {hi : Nat}
    (h : l.getLast? = some hi) : hi ∈ l ∧ ∀ x ∈ l, x ≤ hi := by
  induction l with
  | nil => simp at h
  | cons a t ih =>
    cases t with
    | nil =>
      simp only [List.getLast?_singleton, Option.some.injEq] at h
      subst h
      simp
    | cons b t =>
      rw [List.getLast?_cons_cons] at h
      obtain ⟨h1, h2⟩ := ih hs.of_cons h
      refine ⟨List.mem_cons_of_mem _ h1, ?_⟩
      intro x hx
      rcases List.mem_cons.mp hx with rfl | hx
      · exact List.rel_of_sorted_cons hs hi h1
      · exact h2 x hx

theorem buildTable_getD (temp : List Nat) (R x : Nat) (hx : x < 256) :
    (buildTable temp R).getD x 0 = tableEntry temp R x := by
  unfold buildTable
  rw [List.getD_eq_getElem _ _ (by simpa using hx)]
  simp

/-- Closed form of `extract` on a non-empty 8-bit image. -/
theorem extract_eq (lum : List Nat) (R : Nat) (hne : lum ≠ []) (h8 : ∀ x ∈ lum, x < 256)
    (hR1 : 1 ≤ R) :
    ∃ lo hi, lo ∈ lum ∧ hi ∈ lum ∧ (∀ x ∈ lum, lo ≤ x ∧ x ≤ hi) ∧
      extract lum R = some (lum.map (bandOf ((hi - lo) / R) lo R)) := by
  have hs := List.sorted_insertionSort (fun a b : Nat => a ≤ b) lum
  have hp := List.perm_insertionSort (fun a b : Nat => a ≤ b) lum
  have hne' : lum.insertionSort (fun a b => a ≤ b) ≠ [] := by
    intro h; rw [h] at hp; exact hne hp.symm.eq_nil
  obtain ⟨lo, hlo⟩ : ∃ lo, (lum.insertionSort (fun a b => a ≤ b)).head? = some lo := by
    cases h : lum.insertionSort (fun a b => a ≤ b) with
    | nil => exact absurd h hne'
    | cons a t => exact ⟨a, rfl⟩
  obtain ⟨hi, hhi⟩ : ∃ hi, (lum.insertionSort (fun a b => a ≤ b)).getLast? = some hi :=
    ⟨_, List.getLast?_eq_getLast _ hne'⟩
  obtain ⟨hlo1, hlo2⟩ := sorted_head_le hs hlo
  obtain ⟨hhi1, hhi2⟩ := sorted_le_getLast hs hhi
  refine ⟨lo, hi, hp.mem_iff.mp hlo1, hp.mem_iff.mp hhi1,
    fun x hx => ⟨hlo2 x (hp.mem_iff.mpr hx), hhi2 x (hp.mem_iff.mpr hx)⟩, ?_⟩
  unfold extract
  simp only [hlo, hhi]
  rw [if_neg (by omega)]
  congr 1
  apply List.map_congr_left
  intro x hx
  rw [buildTable_getD _ _ _ (h8 x hx)]
  apply tableEntry_eq _ _ _ _ hR1
  intro hte
  have h1 : hi < 256 := h8 hi (hp.mem_iff.mp hhi1)
  have h2 : R ≤ hi - lo := by
    by_contra hcon
    have : (hi - lo) / R = 0 := Nat.div_eq_of_lt (by omega)
    omega
  omega

theorem bandOf_lt (te lo R x : Nat) (hR1 : 1 ≤ R) : bandOf te lo R x < R := by
  unfold bandOf
  split_ifs
  · exact Nat.lt_of_le_of_lt (Nat.sub_le _ _) (by omega)
  · omega

theorem bandOf_top (te lo R x : Nat) (h : te * (R - 1) + lo ≤ x) : bandOf te lo R x = 0 := by
  unfold bandOf
  rw [if_neg (by omega)]

theorem div_mul_pred_le (d R : Nat) : d / R * (R - 1) ≤ d :=
  le_trans (Nat.mul_le_mul_left _ (Nat.sub_le R 1)) (Nat.div_mul_le_self d R)

/-- C1: for a non-empty 8-bit luminance image and a region count `1 ≤ R ≤ 256`,
`extract` returns a label image of the same size, every label is below `R`, and
every pixel whose value is the global maximum has label 0. -/
theorem extract_labels_in_range (lum : List Nat) (R : Nat) (hne : lum ≠ [])
    (h8 : ∀ x ∈ lum, x < 256) (hR1 : 1 ≤ R) (_hR : R ≤ 256) :
    ∃ labels, extract lum R = some labels ∧ labels.length = lum.length ∧
      (∀ l ∈ labels, l < R) ∧
      ∀ (i : Nat) (h1 : i < lum.length) (h2 : i < labels.length),
        (∀ y ∈ lum, y ≤ lum[i]) → labels[i] = 0 := by
  obtain ⟨lo, hi, _, hhi, hb, he⟩ := extract_eq lum R hne h8 hR1
  refine ⟨_, he, by simp, ?_, ?_⟩
  · intro l hl
    obtain ⟨x, _, rfl⟩ := List.mem_map.mp hl
    exact bandOf_lt _ _ _ _ hR1
  · intro i h1 h2 hmax
    rw [List.getElem_map]
    apply bandOf_top
    have h3 : hi ≤ lum[i] := hmax hi hhi
    have h4 : lo ≤ hi := (hb hi hhi).1
    have h5 := div_mul_pred_le (hi - lo) R
    omega

/-- Witness for C1 on the image `[30, 220, 30, 220]` with two regions. -/
theorem extract_labels_in_range_witness :
    ∃ labels, extract [30, 220, 30, 220] 2 = some labels ∧
      labels.length = [30, 220, 30, 220].length ∧
      (∀ l ∈ labels, l < 2) ∧
      ∀ (i : Nat) (h1 : i < [30, 220, 30, 220].length) (h2 : i < labels.length),
        (∀ y ∈ [30, 220, 30, 220], y ≤ [30, 220, 30, 220][i]) → labels[i] = 0 :=
  extract_labels_in_range [30, 220, 30, 220] 2 (by decide) (by decide) (by decide) (by decide)

/-- C2 as stated is false: on the image `[0, 6, 10]` with three regions the pixel
of value 6 gets label 0, but with the exact quotient 10/3 the band of label 0 is
`[20/3, 10)`, which does not contain 6 (and 6 is not the maximum). -/
theorem extract_exact_banding_counterexample : ¬ ExactBanding [0, 6, 10] 3 0 10 := by
  rintro ⟨labels, he, hall⟩
  have hl : labels = [2, 0, 0] := by
    have h : extract [0, 6, 10] 3 = some [2, 0, 0] := by decide
    rw [h] at he
    exact (Option.some.inj he).symm
  subst hl
  rcases hall 1 (by decide) (by decide) with h | h
  · simp at h
  · obtain ⟨h1, _⟩ := h
    simp only [exactBoundary, List.getElem_cons_succ, List.getElem_cons_zero] at h1
    norm_num at h1

/-- C2 (amended): with the integer quotient `bw = (max - min) / R` and boundaries
`min + bw * j`, a pixel of value `x` gets label 0 when `x` is at or above
`min + bw * (R - 1)`, and otherwise the label `k` in `1 .. R-1` for which
`min + bw * (R - 1 - k) ≤ x < min + bw * (R - k)`. -/
theorem extract_floor_banding (lum : List Nat) (R lo hi : Nat)
    (h8 : ∀ x ∈ lum, x < 256) (hR1 : 1 ≤ R)
    (hlo : lo ∈ lum) (hhi : hi ∈ lum) (hb : ∀ x ∈ lum, lo ≤ x ∧ x ≤ hi) (_hlt : lo < hi) :
    ∃ labels, extract lum R = some labels ∧ labels.length = lum.length ∧
      ∀ (i : Nat) (h1 : i < lum.length) (h2 : i < labels.length),
        (labels[i] = 0 ∧ lo + (hi - lo) / R * (R - 1) ≤ lum[i]) ∨
        (1 ≤ labels[i] ∧ labels[i] ≤ R - 1 ∧
          lo + (hi - lo) / R * (R - 1 - labels[i]) ≤ lum[i] ∧
          lum[i] < lo + (hi - lo) / R * (R - labels[i])) := by
  have hne : lum ≠ [] := List.ne_nil_of_mem hlo
  obtain ⟨lo', hi', hlo', hhi', hb', he⟩ := extract_eq lum R hne h8 hR1
  have e1 : lo' = lo := le_antisymm (hb' lo hlo).1 (hb lo' hlo').1
  have e2 : hi' = hi := le_antisymm (hb hi' hhi').2 (hb' hi hhi).2
  subst e1 e2
  refine ⟨_, he, by simp, ?_⟩
  intro i h1 h2
  rw [List.getElem_map]
  have hx : lo' ≤ lum[i] := (hb lum[i] (List.getElem_mem h1)).1
  generalize lum[i] = x at hx
  generalize (hi' - lo') / R = te
  unfold bandOf
  by_cases hc : lo' ≤ x ∧ x < te * (R - 1) + lo'
  · right
    rw [if_pos hc]
    obtain ⟨_, hc2⟩ := hc
    have hte : 0 < te := by
      rcases Nat.eq_zero_or_pos te with h | h
      · subst h; simp at hc2; omega
      · exact h
    have hq : (x - lo') / te < R - 1 := by
      rw [Nat.div_lt_iff_lt_mul hte, Nat.mul_comm]; omega
    have h3 := Nat.div_mul_le_self (x - lo') te
    have h4 := Nat.lt_div_mul_add (a := x - lo') hte
    generalize (x - lo') / te = q at hq h3 h4 ⊢
    have e3 : R - 1 - (R - 1 - q) = q := by omega
    have e4 : R - (R - 1 - q) = q + 1 := by omega
    rw [e3, e4]
    refine ⟨by omega, Nat.sub_le _ _, ?_, ?_⟩
    · rw [Nat.mul_comm]; omega
    · rw [Nat.mul_add, Nat.mul_one, Nat.mul_comm]; omega
  · left
    rw [if_neg hc]
    refine ⟨rfl, ?_⟩
    have : ¬ x < te * (R - 1) + lo' := fun h => hc ⟨hx, h⟩
    omega

/-- Witness for the amended C2 on the image `[0, 6, 10]` with three regions. -/
theorem extract_floor_banding_witness :
    ∃ labels, extract [0, 6, 10] 3 = some labels ∧ labels.length = [0, 6, 10].length ∧
      ∀ (i : Nat) (h1 : i < [0, 6, 10].length) (h2 : i < labels.length),
        (labels[i] = 0 ∧ 0 + (10 - 0) / 3 * (3 - 1) ≤ [0, 6, 10][i]) ∨
        (1 ≤ labels[i] ∧ labels[i] ≤ 3 - 1 ∧
          0 + (10 - 0) / 3 * (3 - 1 - labels[i]) ≤ [0, 6, 10][i] ∧
          [0, 6, 10][i] < 0 + (10 - 0) / 3 * (3 - labels[i])) :=
  extract_floor_banding [0, 6, 10] 3 0 10 (by decide) (by decide) (by decide) (by decide)
    (by decide) (by decide)

/-! ### `expo_fuse` -/

section FuseLemmas

variable {K : Type} [LinearOrderedField K]

theorem sum_map_const_zero {α : Type} (l : List α) (f : α → K) (h : ∀ a ∈ l, f a = 0) :
    (l.map f).sum = 0 := by
  induction l with
  | nil => simp
  | cons a t ih =>
    simp only [List.map_cons, List.sum_cons]
    rw [h a (List.mem_cons_self _ _), ih (fun b hb => h b (List.mem_cons_of_mem _ hb))]
    simp

theorem sum_map_div {α : Type} (l : List α) (f : α → K) (c : K) :
    (l.map (fun a => f a / c)).sum = (l.map f).sum / c := by
  induction l with
  | nil => simp
  | cons a t ih => simp only [List.map_cons, List.sum_cons, ih, add_div]

theorem filter2D_detailKernel (border : Nat → Int → Nat) (rows cols : Nat)
    (f : Nat → Nat → K) (y x : Nat) :
    filter2D border rows cols f detailKernel y x = 0 := by
  unfold filter2D
  apply sum_map_const_zero
  intro p _
  simp [detailKernel]

theorem sumLayers_apply (w : Layers K → Nat → Nat → K) (l0 : Layers K)
    (ls : List (Layers K)) (y x : Nat) :
    sumLayers w l0 ls y x = ((l0 :: ls).map (fun l => w l y x)).sum := by
  unfold sumLayers
  have h : ∀ (ls : List (Layers K)) (init : Nat → Nat → K),
      ls.foldl (fun acc l => fun y x => acc y x + w l y x) init y x =
        init y x + (ls.map (fun l => w l y x)).sum := by
    intro ls
    induction ls with
    | nil => intro init; simp
    | cons a t ih =>
      intro init
      simp only [List.foldl_cons, List.map_cons, List.sum_cons]
      rw [ih]
      ring
  rw [h]
  simp

theorem blend_apply (wb_s wd_s : Nat → Nat → K) (ls : List (Layers K)) (y x : Nat) :
    blend wb_s wd_s ls y x =
      ⟨(ls.map (fun l => (blendTerm wb_s wd_s l y x).c0)).sum,
       (ls.map (fun l => (blendTerm wb_s wd_s l y x).c1)).sum,
       (ls.map (fun l => (blendTerm wb_s wd_s l y x).c2)).sum⟩ := by
  unfold blend
  have h : ∀ (ls : List (Layers K)) (init : Nat → Nat → Vec3 K),
      ls.foldl
        (fun dst l => fun y x =>
          let t := blendTerm wb_s wd_s l y x
          (⟨(dst y x).c0 + t.c0, (dst y x).c1 + t.c1, (dst y x).c2 + t.c2⟩ : Vec3 K))
        init y x =
        ⟨(init y x).c0 + (ls.map (fun l => (blendTerm wb_s wd_s l y x).c0)).sum,
         (init y x).c1 + (ls.map (fun l => (blendTerm wb_s wd_s l y x).c1)).sum,
         (init y x).c2 + (ls.map (fun l => (blendTerm wb_s wd_s l y x).c2)).sum⟩ := by
    intro ls
    induction ls with
    | nil => intro init; simp
    | cons a t ih =>
      intro init
      simp only [List.foldl_cons, List.map_cons, List.sum_cons]
      rw [ih]
      simp only [add_assoc]
  rw [h]
  simp

end FuseLemmas

theorem layersOf_W_B_pos (gf : Mat ℝ → Mat ℝ → ℝ → ℝ → (Nat → Nat → ℝ))
    (border : Nat → Int → Nat) (p : Mat (Vec3 Nat)) (y x : Nat) :
    0 < (layersOf gf border Real.exp p).W_B y x := by
  simp only [layersOf]
  exact mul_pos (Real.exp_pos _) (Real.exp_pos _)

theorem layersOf_W_D_pos (gf : Mat ℝ → Mat ℝ → ℝ → ℝ → (Nat → Nat → ℝ))
    (border : Nat → Int → Nat) (p : Mat (Vec3 Nat)) (y x : Nat) :
    0 < (layersOf gf border Real.exp p).W_D y x := by
  simp only [layersOf, detailWeightOf]
  exact Real.exp_pos _

theorem normalised_sum_one (w : Layers ℝ → Nat → Nat → ℝ) (l0 : Layers ℝ)
    (ls : List (Layers ℝ)) (y x : Nat) (hpos : ∀ l ∈ l0 :: ls, 0 < w l y x) :
    ((l0 :: ls).map (fun l => normalisedWeight (w l) (sumLayers w l0 ls) y x)).sum = 1 := by
  unfold normalisedWeight
  rw [sum_map_div (l0 :: ls) (fun l => w l y x) (sumLayers w l0 ls y x), sumLayers_apply]
  apply div_self
  apply ne_of_gt
  simp only [List.map_cons, List.sum_cons]
  have h0 : 0 < w l0 y x := hpos l0 (List.mem_cons_self _ _)
  have h1 : 0 ≤ (ls.map (fun l => w l y x)).sum := by
    apply List.sum_nonneg
    intro v hv
    obtain ⟨l, hl, rfl⟩ := List.mem_map.mp hv
    exact le_of_lt (hpos l (List.mem_cons_of_mem _ hl))
  linarith

theorem length_positions (rows cols : Nat) : (positions rows cols).length = rows * cols := by
  unfold positions
  induction rows with
  | zero => simp
  | succ n ih =>
    rw [List.range_succ, List.flatMap_append, List.length_append, ih]
    simp [Nat.succ_mul]

theorem sum_map_const {α : Type} (l : List α) (c : ℝ) :
    (l.map (fun _ => c)).sum = (l.length : ℝ) * c := by
  induction l with
  | nil => simp
  | cons a t ih =>
    simp only [List.map_cons, List.sum_cons, ih, List.length_cons]
    push_cast
    ring

/-- C3: the detail weight that `expo_fuse` computes does not depend on the image.
The kernel factor `1 / 49` is an integer quotient, so the filtered luminance is 0
and the weight is `exp(-(0 - 0.5)^2 / (2 * 0.12^2))` for every image `p` and
every pixel.  On the 7×7 uniform image of level 51 (normalised luminance 0.2) the
7×7 window mean is 0.2 and the weight of the claim is
`exp(-(0.2 - 0.5)^2 / (2 * 0.12^2))`, a different number. -/
theorem detail_weight_kernel_is_zero (gf : Mat ℝ → Mat ℝ → ℝ → ℝ → (Nat → Nat → ℝ))
    (border : Nat → Int → Nat) (p : Mat (Vec3 Nat)) (y x : Nat) :
    (layersOf gf border Real.exp p).W_D y x =
        Real.exp (-((0 - 1 / 2) ^ 2) / (2 * (12 / 100) ^ 2)) ∧
    detailWeightOf Real.exp
        (filter2D border 7 7 (fun y x => rgb2gray (normalise (uniformImage 7 7 51) y x))
          averagingKernel 3 3) =
        Real.exp (-((1 / 5 - 1 / 2) ^ 2) / (2 * (12 / 100) ^ 2)) ∧
    (layersOf gf border Real.exp (uniformImage 7 7 51)).W_D 3 3 ≠
      detailWeightOf Real.exp
        (filter2D border 7 7 (fun y x => rgb2gray (normalise (uniformImage 7 7 51) y x))
          averagingKernel 3 3) := by
  have hcode : ∀ (q : Mat (Vec3 Nat)) (v u : Nat), (layersOf gf border Real.exp q).W_D v u =
      Real.exp (-((0 - 1 / 2) ^ 2) / (2 * (12 / 100) ^ 2)) := by
    intro q v u
    simp only [layersOf, detailWeightOf, filter2D_detailKernel]
    congr 1
    ring
  have hmean : filter2D border 7 7
      (fun y x => rgb2gray (normalise (uniformImage 7 7 51) y x : Vec3 ℝ))
      averagingKernel 3 3 = 1 / 5 := by
    unfold filter2D
    simp only [averagingKernel, normalise, uniformImage, Vec3.map, rgb2gray]
    rw [sum_map_const, length_positions]
    norm_num
  have hspec : detailWeightOf Real.exp
      (filter2D border 7 7 (fun y x => rgb2gray (normalise (uniformImage 7 7 51) y x))
        averagingKernel 3 3) =
      Real.exp (-((1 / 5 - 1 / 2) ^ 2) / (2 * (12 / 100) ^ 2)) := by
    rw [hmean]
    unfold detailWeightOf
    congr 1
    ring
  refine ⟨hcode p y x, hspec, ?_⟩
  rw [hcode, hspec]
  intro h
  have h2 := Real.exp_injective h
  norm_num at h2

/-- C5: for a non-empty stack `p0 :: ps`, at every pixel the normalised base
weights `W_B[i] / Σ_j W_B[j]` sum to 1 over the stack, and so do the normalised
detail weights `W_D[i] / Σ_j W_D[j]` (real arithmetic, any smoothing operator). -/
theorem normalised_weights_sum_to_one (gf : Mat ℝ → Mat ℝ → ℝ → ℝ → (Nat → Nat → ℝ))
    (border : Nat → Int → Nat) (p0 : Mat (Vec3 Nat)) (ps : List (Mat (Vec3 Nat)))
    (y x : Nat) :
    (((layersOf gf border Real.exp p0) :: ps.map (layersOf gf border Real.exp)).map
        (fun l => normalisedWeight l.W_B
          (sumLayers Layers.W_B (layersOf gf border Real.exp p0)
            (ps.map (layersOf gf border Real.exp))) y x)).sum = 1 ∧
    (((layersOf gf border Real.exp p0) :: ps.map (layersOf gf border Real.exp)).map
        (fun l => normalisedWeight l.W_D
          (sumLayers Layers.W_D (layersOf gf border Real.exp p0)
            (ps.map (layersOf gf border Real.exp))) y x)).sum = 1 := by
  constructor
  · apply normalised_sum_one Layers.W_B
    intro l hl
    rw [← List.map_cons (layersOf gf border Real.exp) p0 ps] at hl
    obtain ⟨p, _, rfl⟩ := List.mem_map.mp hl
    exact layersOf_W_B_pos gf border p y x
  · apply normalised_sum_one Layers.W_D
    intro l hl
    rw [← List.map_cons (layersOf gf border Real.exp) p0 ps] at hl
    obtain ⟨p, _, rfl⟩ := List.mem_map.mp hl
    exact layersOf_W_D_pos gf border p y x

theorem expo_fuse_single (gf : Mat ℝ → Mat ℝ → ℝ → ℝ → (Nat → Nat → ℝ))
    (border : Nat → Int → Nat) (p : Mat (Vec3 Nat)) (hrows : 0 < p.rows) (hcols : 0 < p.cols) :
    expo_fuse gf border Real.exp [p] =
      some { rows := p.rows, cols := p.cols,
             px := fun y x => ((layersOf gf border Real.exp p).D y x).map
               (fun d => (layersOf gf border Real.exp p).B y x + 11 / 10 * d) } := by
  unfold expo_fuse
  have hany : [p].any (fun p => p.rows = 0 ∨ p.cols = 0) = false := by
    simp only [List.any_cons, List.any_nil, Bool.or_false, decide_eq_false_iff_not]
    omega
  simp only [hany, Bool.false_eq_true, if_false, List.all_nil, if_true, List.map_nil]
  congr 1
  ext y x
  · rfl
  · rfl
  all_goals
    dsimp only
    rw [blend_apply]
    have hb := layersOf_W_B_pos gf border p y x
    have hd := layersOf_W_D_pos gf border p y x
    simp only [List.map_cons, List.map_nil, List.sum_cons, List.sum_nil, blendTerm,
      normalisedWeight, sumLayers, List.foldl_nil, Vec3.map, add_zero]
    rw [div_self (ne_of_gt hb), div_self (ne_of_gt hd)]
    ring

/-- C6 as stated is false: with a smoothing operator that returns the zero
image, fusing the single 1×1 image of level 255 gives 1.1 in every channel,
while `B + D` (the normalised input) is 1. -/
theorem single_image_identity_counterexample :
    ¬ SingleImageIdentity (fun _ _ _ _ _ _ => (0 : ℝ)) (fun _ _ => 0) Real.exp
        (uniformImage 1 1 255) := by
  rintro ⟨out, he, hall⟩
  rw [expo_fuse_single _ _ _ (by decide) (by decide)] at he
  have h1 := hall 0 0
  rw [← Option.some.inj he] at h1
  have h2 := congrArg Vec3.c0 h1
  simp only [layersOf, Vec3.map, normalise, uniformImage] at h2
  norm_num at h2

/-- C6 (amended): fusing a stack of exactly one (non-empty) image returns, at
every pixel and channel, `B + 1.1 * D`: the base layer plus the detail layer
amplified by `alpha = 1.1` (both normalised weights are 1). -/
theorem single_image_fusion (gf : Mat ℝ → Mat ℝ → ℝ → ℝ → (Nat → Nat → ℝ))
    (border : Nat → Int → Nat) (p : Mat (Vec3 Nat)) (hrows : 0 < p.rows) (hcols : 0 < p.cols) :
    ∃ out, expo_fuse gf border Real.exp [p] = some out ∧
      out.rows = p.rows ∧ out.cols = p.cols ∧
      ∀ y x, out.px y x =
        ((layersOf gf border Real.exp p).D y x).map
          (fun d => (layersOf gf border Real.exp p).B y x + 11 / 10 * d) :=
  ⟨_, expo_fuse_single gf border p hrows hcols, rfl, rfl, fun _ _ => rfl⟩

/-- Witness for the amended C6: the 1×1 image of level 255 with a smoothing
operator that returns the zero image. -/
theorem single_image_fusion_witness :
    ∃ out, expo_fuse (fun _ _ _ _ _ _ => (0 : ℝ)) (fun _ _ => 0) Real.exp
        [uniformImage 1 1 255] = some out ∧
      out.rows = (uniformImage 1 1 255).rows ∧ out.cols = (uniformImage 1 1 255).cols ∧
      ∀ y x, out.px y x =
        ((layersOf (fun _ _ _ _ _ _ => (0 : ℝ)) (fun _ _ => 0) Real.exp
            (uniformImage 1 1 255)).D y x).map
          (fun d => (layersOf (fun _ _ _ _ _ _ => (0 : ℝ)) (fun _ _ => 0) Real.exp
            (uniformImage 1 1 255)).B y x + 11 / 10 * d) :=
  single_image_fusion (fun _ _ _ _ _ _ => (0 : ℝ)) (fun _ _ => 0) (uniformImage 1 1 255)
    (by decide) (by decide)

section FusePerm

variable {K : Type} [LinearOrderedField K]

theorem sumLayers_eq_totalWeight (w : Layers K → Nat → Nat → K) (l0 : Layers K)
    (ls : List (Layers K)) : sumLayers w l0 ls = totalWeight w (l0 :: ls) := by
  funext y x
  rw [sumLayers_apply]
  rfl

theorem totalWeight_perm (w : Layers K → Nat → Nat → K) {l₁ l₂ : List (Layers K)}
    (h : l₁.Perm l₂) : totalWeight w l₁ = totalWeight w l₂ := by
  funext y x
  exact (h.map _).sum_eq

theorem fusedPx_perm {l₁ l₂ : List (Layers K)} (h : l₁.Perm l₂) : fusedPx l₁ = fusedPx l₂ := by
  funext y x
  unfold fusedPx
  rw [totalWeight_perm Layers.W_B h, totalWeight_perm Layers.W_D h]
  congr 1
  · exact (h.map _).sum_eq
  · exact (h.map _).sum_eq
  · exact (h.map _).sum_eq

theorem expo_fuse_cons (gf : Mat K → Mat K → K → K → (Nat → Nat → K))
    (border : Nat → Int → Nat) (expf : K → K) (p0 : Mat (Vec3 Nat))
    (ps : List (Mat (Vec3 Nat)))
    (hpos : ∀ p ∈ p0 :: ps, 0 < p.rows ∧ 0 < p.cols)
    (h : ∀ p ∈ ps, p.rows = p0.rows ∧ p.cols = p0.cols) :
    expo_fuse gf border expf (p0 :: ps) =
      some { rows := p0.rows, cols := p0.cols,
             px := fusedPx ((p0 :: ps).map (layersOf gf border expf)) } := by
  unfold expo_fuse
  have hany : (p0 :: ps).any (fun p => p.rows = 0 ∨ p.cols = 0) = false := by
    rw [List.any_eq_false]
    intro p hp
    have := hpos p hp
    simp only [decide_eq_true_eq]
    omega
  have hall : ps.all (fun p => p.rows = p0.rows ∧ p.cols = p0.cols) = true := by
    rw [List.all_eq_true]
    intro p hp
    exact decide_eq_true (h p hp)
  simp only [hany, Bool.false_eq_true, hall, if_true, if_false]
  congr 1
  ext y x
  · rfl
  · rfl
  all_goals
    dsimp only
    rw [blend_apply, sumLayers_eq_totalWeight, sumLayers_eq_totalWeight]
    rfl

theorem expo_fuse_perm (gf : Mat K → Mat K → K → K → (Nat → Nat → K))
    (border : Nat → Int → Nat) (expf : K → K) (pme pme' : List (Mat (Vec3 Nat)))
    (hperm : pme.Perm pme') (hne : pme ≠ [])
    (hpos : ∀ p ∈ pme, 0 < p.rows ∧ 0 < p.cols)
    (hsize : ∀ p ∈ pme, ∀ q ∈ pme, p.rows = q.rows ∧ p.cols = q.cols) :
    ∃ out, expo_fuse gf border expf pme = some out ∧
      expo_fuse gf border expf pme' = some out := by
  cases pme with
  | nil => exact absurd rfl hne
  | cons p0 ps =>
    cases pme' with
    | nil => exact absurd hperm.eq_nil (by simp)
    | cons q0 qs =>
      have hq0 : q0 ∈ p0 :: ps := hperm.mem_iff.mpr (List.mem_cons_self _ _)
      have hp0 : p0 ∈ p0 :: ps := List.mem_cons_self _ _
      rw [expo_fuse_cons gf border expf p0 ps hpos
          (fun p hp => hsize p (List.mem_cons_of_mem _ hp) p0 hp0),
        expo_fuse_cons gf border expf q0 qs
          (fun q hq => hpos q (hperm.mem_iff.mpr hq))
          (fun q hq => hsize q (hperm.mem_iff.mpr (List.mem_cons_of_mem _ hq)) q0 hq0)]
      refine ⟨_, rfl, ?_⟩
      rw [fusedPx_perm (hperm.map (layersOf gf border expf)),
        (hsize p0 hp0 q0 hq0).1, (hsize p0 hp0 q0 hq0).2]

end FusePerm

/-- C10: for a non-empty stack of equally sized (non-empty) images and any
permutation of it, `expo_fuse` (real arithmetic, the smoothing operator applied
per element) succeeds on both and returns the same image. -/
theorem fusion_permutation_invariant (gf : Mat ℝ → Mat ℝ → ℝ → ℝ → (Nat → Nat → ℝ))
    (border : Nat → Int → Nat) (pme pme' : List (Mat (Vec3 Nat)))
    (hperm : pme.Perm pme') (hne : pme ≠ [])
    (hpos : ∀ p ∈ pme, 0 < p.rows ∧ 0 < p.cols)
    (hsize : ∀ p ∈ pme, ∀ q ∈ pme, p.rows = q.rows ∧ p.cols = q.cols) :
    ∃ out, expo_fuse gf border Real.exp pme = some out ∧
      expo_fuse gf border Real.exp pme' = some out :=
  expo_fuse_perm gf border Real.exp pme pme' hperm hne hpos hsize

/-- Witness for C10: a two-image stack and its swap, with the luminance itself
as smoothing result. -/
theorem fusion_permutation_invariant_witness :
    ∃ out,
      expo_fuse (fun _ (m : Mat ℝ) _ _ => m.px) (fun _ _ => 0) Real.exp
        [uniformImage 2 2 30, uniformImage 2 2 220] = some out ∧
      expo_fuse (fun _ (m : Mat ℝ) _ _ => m.px) (fun _ _ => 0) Real.exp
        [uniformImage 2 2 220, uniformImage 2 2 30] = some out :=
  fusion_permutation_invariant (fun _ (m : Mat ℝ) _ _ => m.px) (fun _ _ => 0)
    [uniformImage 2 2 30, uniformImage 2 2 220] [uniformImage 2 2 220, uniformImage 2 2 30]
    (List.Perm.swap _ _ _) (by simp)
    (by
      intro p hp
      simp only [List.mem_cons, List.mem_singleton, List.not_mem_nil, or_false] at hp
      rcases hp with rfl | rfl <;> exact ⟨by decide, by decide⟩)
    (by
      intro p hp q hq
      simp only [List.mem_cons, List.mem_singleton, List.not_mem_nil, or_false] at hp hq
      rcases hp with rfl | rfl <;> rcases hq with rfl | rfl <;> exact ⟨rfl, rfl⟩)

/-! ### `gamma` -/

section GammaLemmas

variable {K : Type} [LinearOrderedField K] [FloorRing K]

theorem cvRound_of_lt (x : K) (n : Int) (h1 : (n : K) - 1 / 2 < x) (h2 : x < (n : K) + 1 / 2) :
    cvRound x = n := by
  unfold cvRound
  rcases le_or_lt (n : K) x with h | h
  · have hf : Int.floor x = n := by
      rw [Int.floor_eq_iff]
      constructor
      · exact h
      · linarith
    simp only [hf]
    rw [if_pos (by linarith)]
  · have hf : Int.floor x = n - 1 := by
      rw [Int.floor_eq_iff]
      push_cast
      constructor
      · linarith
      · linarith
    simp only [hf]
    push_cast
    rw [if_neg (by linarith), if_pos (by linarith)]
    ring

theorem cvRound_intCast (n : Int) : cvRound (n : K) = n :=
  cvRound_of_lt _ n (by linarith) (by linarith)

theorem floor_le_cvRound (x : K) : Int.floor x ≤ cvRound x := by
  unfold cvRound
  simp only
  split_ifs <;> omega

theorem cvRound_le_floor_succ (x : K) : cvRound x ≤ Int.floor x + 1 := by
  unfold cvRound
  simp only
  split_ifs <;> omega

theorem cvRound_mono {x y : K} (h : x ≤ y) : cvRound x ≤ cvRound y := by
  rcases lt_or_eq_of_le (Int.floor_mono h) with hlt | heq
  · calc cvRound x ≤ Int.floor x + 1 := cvRound_le_floor_succ x
      _ ≤ Int.floor y := hlt
      _ ≤ cvRound y := floor_le_cvRound y
  · unfold cvRound
    simp only [heq]
    split_ifs <;> first | omega | (exfalso; linarith)

theorem saturate_uchar_mono {a b : Int} (h : a ≤ b) : saturate_uchar a ≤ saturate_uchar b := by
  unfold saturate_uchar
  split_ifs <;> omega

theorem saturate_uchar_le (a : Int) : saturate_uchar a ≤ 255 := by
  unfold saturate_uchar
  split_ifs <;> omega

theorem LUT_gammaTable (pw : K → K → K) (g : K) (v : Nat) (hv : v < 256) :
    LUT (gammaTable pw g) v = saturate_uchar (cvRound (pw ((v : K) / 255) g * 255)) := by
  unfold LUT gammaTable
  rw [List.getD_eq_getElem _ _ (by rw [List.length_map, List.length_range]; exact hv),
    List.getElem_map, List.getElem_range]

theorem LUT_gammaTable_lt (pw : K → K → K) (g : K) (v : Nat) (hv : v < 256) :
    LUT (gammaTable pw g) v < 256 := by
  rw [LUT_gammaTable pw g v hv]
  exact Nat.lt_succ_of_le (saturate_uchar_le _)

end GammaLemmas

theorem gammaTable_rpow_mono (g : ℝ) (hg : 0 < g) (i j : Nat) (hij : i ≤ j) (hj : j < 256) :
    LUT (gammaTable Real.rpow g) i ≤ LUT (gammaTable Real.rpow g) j := by
  rw [LUT_gammaTable _ _ i (by omega), LUT_gammaTable _ _ j hj]
  apply saturate_uchar_mono
  apply cvRound_mono
  apply mul_le_mul_of_nonneg_right _ (by norm_num)
  simp only [Real.rpow_eq_pow]
  apply Real.rpow_le_rpow (by positivity) _ (le_of_lt hg)
  apply div_le_div_of_nonneg_right _ (by norm_num)
  exact_mod_cast hij

/-- C8: for every exponent `g > 0` the table built by `gamma`, whose entry for
level `i` is `pow(i/255, g) * 255` rounded and saturated to `[0, 255]`, is
monotonic: for levels `i ≤ j` the entry of `i` is at most the entry of `j`
(the C function `pow` taken as the real power). -/
theorem gamma_table_monotonic (g : ℝ) (hg : 0 < g) (i j : Nat) (hij : i ≤ j) (hj : j < 256) :
    LUT (gammaTable Real.rpow g) i =
        saturate_uchar (cvRound (Real.rpow ((i : ℝ) / 255) g * 255)) ∧
    LUT (gammaTable Real.rpow g) j =
        saturate_uchar (cvRound (Real.rpow ((j : ℝ) / 255) g * 255)) ∧
    LUT (gammaTable Real.rpow g) i ≤ LUT (gammaTable Real.rpow g) j :=
  ⟨LUT_gammaTable _ _ i (by omega), LUT_gammaTable _ _ j hj,
    gammaTable_rpow_mono g hg i j hij hj⟩

/-- Witness for C8 with `g = 2` and the levels 10 and 200. -/
theorem gamma_table_monotonic_witness :
    LUT (gammaTable Real.rpow 2) 10 =
        saturate_uchar (cvRound (Real.rpow (((10 : Nat) : ℝ) / 255) 2 * 255)) ∧
    LUT (gammaTable Real.rpow 2) 200 =
        saturate_uchar (cvRound (Real.rpow (((200 : Nat) : ℝ) / 255) 2 * 255)) ∧
    LUT (gammaTable Real.rpow 2) 10 ≤ LUT (gammaTable Real.rpow 2) 200 :=
  gamma_table_monotonic 2 (by norm_num) 10 200 (by decide) (by decide)

theorem gammaTable_rpow_zero (g : ℝ) (hg : 0 < g) : LUT (gammaTable Real.rpow g) 0 = 0 := by
  rw [LUT_gammaTable _ _ 0 (by decide)]
  simp only [Real.rpow_eq_pow, Nat.cast_zero, zero_div, Real.zero_rpow (ne_of_gt hg), zero_mul]
  have h := cvRound_intCast (K := ℝ) 0
  simp only [Int.cast_zero] at h
  rw [h]
  rfl

theorem gammaTable_rpow_top (g : ℝ) : LUT (gammaTable Real.rpow g) 255 = 255 := by
  rw [LUT_gammaTable _ _ 255 (by decide)]
  have e : ((255 : Nat) : ℝ) / 255 = 1 := by norm_num
  simp only [Real.rpow_eq_pow, e, Real.one_rpow, one_mul]
  have h := cvRound_intCast (K := ℝ) 255
  simp only [Int.cast_ofNat] at h
  rw [h]
  rfl

theorem gammaTable_rpow_one (v : Nat) (hv : v < 256) : LUT (gammaTable Real.rpow 1) v = v := by
  rw [LUT_gammaTable _ _ v hv]
  have e : Real.rpow ((v : ℝ) / 255) 1 * 255 = ((v : Int) : ℝ) := by
    simp only [Real.rpow_eq_pow, Real.rpow_one]
    push_cast
    field_simp
  rw [e, cvRound_intCast]
  unfold saturate_uchar
  split_ifs <;> omega

/-- C7 as stated is false: for `g = 2` the level 10 goes to 0 in the table for 2
(`100/255` rounds to 0) and 0 stays 0 in the table for `1/2`, so the round trip
misses 10 by 10. -/
theorem gamma_round_trip_counterexample :
    gammaRoundTrip Real.rpow 2 10 = 0 ∧
      ¬ (((gammaRoundTrip Real.rpow 2 10 : Nat) : Int) - 10).natAbs ≤ 2 := by
  have h : gammaRoundTrip Real.rpow 2 10 = 0 := by
    unfold gammaRoundTrip
    have h1 : LUT (gammaTable Real.rpow (2 : ℝ)) 10 = 0 := by
      rw [LUT_gammaTable _ _ 10 (by decide)]
      have e : Real.rpow (((10 : Nat) : ℝ) / 255) 2 * 255 = 100 / 255 := by
        simp only [Real.rpow_eq_pow, Real.rpow_two]
        norm_num
      rw [e, cvRound_of_lt (100 / 255 : ℝ) 0 (by norm_num) (by norm_num)]
      rfl
    rw [h1]
    exact gammaTable_rpow_zero (1 / 2) (by norm_num)
  refine ⟨h, ?_⟩
  rw [h]
  decide

/-- C7 (amended): for every exponent `g > 0` the round trip through the table for
`g` and the table for `1/g` returns the end levels exactly (0 gives 0, 255 gives
255), and for `g = 1` it returns every level exactly. -/
theorem gamma_round_trip_exact_levels (g : ℝ) (hg : 0 < g) :
    gammaRoundTrip Real.rpow g 0 = 0 ∧ gammaRoundTrip Real.rpow g 255 = 255 ∧
      ∀ v, v < 256 → gammaRoundTrip Real.rpow 1 v = v := by
  refine ⟨?_, ?_, ?_⟩
  · unfold gammaRoundTrip
    rw [gammaTable_rpow_zero g hg, gammaTable_rpow_zero (1 / g) (by positivity)]
  · unfold gammaRoundTrip
    rw [gammaTable_rpow_top g, gammaTable_rpow_top (1 / g)]
  · intro v hv
    unfold gammaRoundTrip
    rw [gammaTable_rpow_one v hv]
    norm_num
    exact gammaTable_rpow_one v hv

/-- Witness for the amended C7 with `g = 2`. -/
theorem gamma_round_trip_exact_levels_witness :
    gammaRoundTrip Real.rpow 2 0 = 0 ∧ gammaRoundTrip Real.rpow 2 255 = 255 ∧
      ∀ v, v < 256 → gammaRoundTrip Real.rpow 1 v = v :=
  gamma_round_trip_exact_levels 2 (by norm_num)

/-! ### `synEFFromJNI` -/

section SynthesisLemmas

variable {K : Type} [LinearOrderedField K]

theorem extract_isSome (lum : List Nat) (R : Nat) (hne : lum ≠ []) (hR : R ≠ 0) :
    ∃ labels, extract lum R = some labels := by
  have hp := List.perm_insertionSort (fun a b : Nat => a ≤ b) lum
  have hne' : lum.insertionSort (fun a b => a ≤ b) ≠ [] := by
    intro h; rw [h] at hp; exact hne hp.symm.eq_nil
  obtain ⟨lo, hlo⟩ : ∃ lo, (lum.insertionSort (fun a b => a ≤ b)).head? = some lo := by
    cases h : lum.insertionSort (fun a b => a ≤ b) with
    | nil => exact absurd h hne'
    | cons a t => exact ⟨a, rfl⟩
  obtain ⟨hi, hhi⟩ : ∃ hi, (lum.insertionSort (fun a b => a ≤ b)).getLast? = some hi :=
    ⟨_, List.getLast?_eq_getLast _ hne'⟩
  unfold extract
  simp only [hlo, hhi]
  rw [if_neg hR]
  exact ⟨_, rfl⟩

theorem length_toList {α : Type} (m : Mat α) : m.toList.length = m.rows * m.cols := by
  unfold Mat.toList
  rw [List.length_map, length_positions]

theorem extractMat_isSome (lum : Mat Nat) (R : Nat) (hpos : 0 < lum.rows * lum.cols)
    (hR : R ≠ 0) : ∃ labels, extractMat lum R = some labels := by
  have hne : lum.toList ≠ [] := by
    intro h
    have := length_toList lum
    rw [h, List.length_nil] at this
    omega
  obtain ⟨l, hl⟩ := extract_isSome lum.toList R hne hR
  unfold extractMat
  rw [hl]
  exact ⟨_, rfl⟩

theorem matMax_isSome (rows cols : Nat) (f : Nat → Nat → K) (hpos : 0 < rows * cols) :
    ∃ v, matMax rows cols f = some v := by
  unfold matMax
  cases h : (positions rows cols).map (fun p => f p.1 p.2) with
  | nil =>
    have := congrArg List.length h
    rw [List.length_map, length_positions, List.length_nil] at this
    omega
  | cons v vs => exact ⟨_, rfl⟩

theorem foldl_max_const (c : K) (l : List K) (h : ∀ v ∈ l, v = c) : l.foldl max c = c := by
  induction l with
  | nil => rfl
  | cons a t ih =>
    rw [List.foldl_cons, h a (List.mem_cons_self _ _), max_self]
    exact ih (fun v hv => h v (List.mem_cons_of_mem _ hv))

theorem matMax_const (rows cols : Nat) (f : Nat → Nat → K) (c : K) (hpos : 0 < rows * cols)
    (hf : ∀ y x, f y x = c) : matMax rows cols f = some c := by
  unfold matMax
  have hall : ∀ v ∈ (positions rows cols).map (fun p => f p.1 p.2), v = c := by
    intro v hv
    obtain ⟨p, _, rfl⟩ := List.mem_map.mp hv
    exact hf _ _
  cases h : (positions rows cols).map (fun p => f p.1 p.2) with
  | nil =>
    have := congrArg List.length h
    rw [List.length_map, length_positions, List.length_nil] at this
    omega
  | cons v vs =>
    rw [h] at hall
    simp only
    rw [hall v (List.mem_cons_self _ _)]
    rw [foldl_max_const c vs (fun w hw => hall w (List.mem_cons_of_mem _ hw))]

theorem toneMapAll_length (lum : Mat Nat) :
    ∀ (Es ts : List (Nat → Nat → K)), toneMapAll lum Es = some ts → ts.length = Es.length := by
  intro Es
  induction Es with
  | nil =>
    intro ts h
    simp only [toneMapAll, Option.some.injEq] at h
    rw [← h]
  | cons E Es ih =>
    intro ts h
    unfold toneMapAll at h
    cases h1 : toneMap lum E with
    | none => simp [h1] at h
    | some t =>
      cases h2 : toneMapAll lum Es with
      | none => simp [h1, h2] at h
      | some ts' =>
        simp only [h1, h2, Option.some.injEq] at h
        rw [← h, List.length_cons, List.length_cons, ih ts' h2]

theorem toneMapAll_isSome (lum : Mat Nat) (hpos : 0 < lum.rows * lum.cols) :
    ∀ Es : List (Nat → Nat → K), ∃ ts, toneMapAll lum Es = some ts := by
  intro Es
  induction Es with
  | nil => exact ⟨[], rfl⟩
  | cons E Es ih =>
    obtain ⟨ts, hts⟩ := ih
    obtain ⟨v, hv⟩ := matMax_isSome lum.rows lum.cols E hpos
    unfold toneMapAll
    rw [hts]
    unfold toneMap
    rw [hv]
    exact ⟨_, rfl⟩

/-- The stack that `synEFFromJNI` builds: seven synthetic exposures followed by
the gamma-corrected input; the inverse gamma of line 283 reaches only the
caller's image. -/
theorem synEFFromJNI_stack [FloorRing K] (pw : K → K → K) (expf logf : K → K)
    (resize : Mat (Vec3 Nat) → Mat (Vec3 Nat)) (luma : Vec3 Nat → Nat)
    (prev : Mat (Vec3 Nat)) (g : K) (r : SynResult)
    (h : synEFFromJNI pw expf logf resize luma prev g = some r) :
    r.pme.length = 8 ∧ r.pme.getLast? = some (gamma pw prev g) ∧
      r.mprev = gamma pw (gamma pw prev g) (1 / g) := by
  unfold synEFFromJNI at h
  simp only at h
  cases h1 : extractMat (lumaChannel luma (resize (gamma pw prev g))) 7 with
  | none => simp [h1] at h
  | some labels =>
    simp only [h1] at h
    split at h
    · simp at h
    · rename_i tm htm
      have hlen := toneMapAll_length _ _ _ htm
      simp only [Option.some.injEq] at h
      subst h
      refine ⟨?_, ?_, rfl⟩
      · simp only [List.length_append, List.length_map, List.length_singleton, hlen, gains,
          List.length_range]
      · simp

theorem synEFFromJNI_isSome [FloorRing K] (pw : K → K → K) (expf logf : K → K)
    (resize : Mat (Vec3 Nat) → Mat (Vec3 Nat)) (luma : Vec3 Nat → Nat)
    (prev : Mat (Vec3 Nat)) (g : K)
    (hsmall : 0 < (resize (gamma pw prev g)).rows * (resize (gamma pw prev g)).cols)
    (hfull : 0 < prev.rows * prev.cols) :
    ∃ r, synEFFromJNI pw expf logf resize luma prev g = some r := by
  unfold synEFFromJNI
  simp only
  obtain ⟨labels, hl⟩ :=
    extractMat_isSome (lumaChannel luma (resize (gamma pw prev g))) 7 hsmall (by decide)
  rw [hl]
  simp only
  obtain ⟨ts, hts⟩ := toneMapAll_isSome (K := K) (lumaChannel luma (gamma pw prev g)) hfull
    ((gains expf
        (accumulate logf (addOneSat (lumaChannel luma (resize (gamma pw prev g)))) labels 7).1
        (accumulate logf (addOneSat (lumaChannel luma (resize (gamma pw prev g)))) labels 7).2
        7).map (scaled (lumaChannel luma (gamma pw prev g))))
  rw [hts]
  exact ⟨_, rfl⟩

end SynthesisLemmas

theorem gammaTable_two_128 : LUT (gammaTable Real.rpow (2 : ℝ)) 128 = 64 := by
  rw [LUT_gammaTable _ _ 128 (by decide)]
  have e : Real.rpow (((128 : Nat) : ℝ) / 255) 2 * 255 = 16384 / 255 := by
    simp only [Real.rpow_eq_pow, Real.rpow_two]
    norm_num
  rw [e, cvRound_of_lt (16384 / 255 : ℝ) 64 (by norm_num) (by norm_num)]
  rfl

theorem gammaTable_half_64 : LUT (gammaTable Real.rpow (1 / 2 : ℝ)) 64 = 128 := by
  rw [LUT_gammaTable _ _ 64 (by decide)]
  have e : Real.rpow (((64 : Nat) : ℝ) / 255) (1 / 2) = Real.sqrt (64 / 255) := by
    rw [Real.sqrt_eq_rpow]
    simp only [Real.rpow_eq_pow]
    norm_num
  have h1 : (1 / 2 : ℝ) < Real.sqrt (64 / 255) := by
    rw [Real.lt_sqrt (by norm_num)]
    norm_num
  have h2 : Real.sqrt (64 / 255) < 257 / 510 := by
    rw [Real.sqrt_lt' (by norm_num)]
    norm_num
  rw [e, cvRound_of_lt (Real.sqrt (64 / 255) * 255) 128
    (by push_cast; linarith) (by push_cast; linarith)]
  rfl

/-- C4: on the 100×100 uniform image of level 128 with `g = 2` the stack that
`synEFFromJNI` hands to the fusion step has 8 elements, and its last element is
the gamma-corrected input (level 64): line 277 clones `mprev` before line 283
applies the inverse table, so the last element is not the gamma-inverted original
(level 128). -/
theorem stack_last_is_gamma_corrected :
    ∃ r, synEFFromJNI Real.rpow Real.exp Real.log downsample20 lumaY
          (uniformImage 100 100 128) (2 : ℝ) = some r ∧
      r.pme.length = 8 ∧
      r.pme.getLast? = some (gamma Real.rpow (uniformImage 100 100 128) (2 : ℝ)) ∧
      (gamma Real.rpow (uniformImage 100 100 128) (2 : ℝ)).px 0 0 = ⟨64, 64, 64⟩ ∧
      (gamma Real.rpow (gamma Real.rpow (uniformImage 100 100 128) (2 : ℝ)) (1 / 2)).px 0 0 =
        ⟨128, 128, 128⟩ := by
  obtain ⟨r, hr⟩ := synEFFromJNI_isSome Real.rpow Real.exp Real.log downsample20 lumaY
    (uniformImage 100 100 128) (2 : ℝ) (by decide) (by decide)
  obtain ⟨h1, h2, _⟩ := synEFFromJNI_stack _ _ _ _ _ _ _ r hr
  refine ⟨r, hr, h1, h2, ?_, ?_⟩
  · simp only [gamma, uniformImage, Vec3.map, gammaTable_two_128]
  · simp only [gamma, uniformImage, Vec3.map, gammaTable_two_128, gammaTable_half_64]

/-- C9: on the 100×100 black image with `g = 2` the luminance of the
gamma-corrected image is 0 everywhere, so for every gain `a` the scaled luminance
`exp[i]` is 0 and the divisor `max_v` of line 246 is 0: the division by
`max(E_r)` has no guard. -/
theorem tone_map_max_divisor_zero (a : ℝ) :
    matMax (lumaChannel lumaY (gamma Real.rpow (uniformImage 100 100 0) (2 : ℝ))).rows
      (lumaChannel lumaY (gamma Real.rpow (uniformImage 100 100 0) (2 : ℝ))).cols
      (scaled (lumaChannel lumaY (gamma Real.rpow (uniformImage 100 100 0) (2 : ℝ))) a) =
      some 0 := by
  apply matMax_const
  · decide
  · intro y x
    simp only [scaled, lumaChannel, gamma, uniformImage, Vec3.map,
      gammaTable_rpow_zero 2 (by norm_num), lumaY]
    norm_num

theorem getD_set_nonneg (l : List ℝ) (k i : Nat) (v : ℝ) (hv : 0 ≤ v)
    (h : ∀ j, 0 ≤ l.getD j 0) : 0 ≤ (l.set k v).getD i 0 := by
  rw [List.getD_eq_getElem?_getD, List.getElem?_set]
  by_cases hki : k = i
  · subst hki
    by_cases hk : k < l.length
    · simp [hk, hv]
    · simp [hk]
  · simp only [hki, if_false]
    rw [← List.getD_eq_getElem?_getD]
    exact h i

theorem accumulate_count_nonneg (logf : ℝ → ℝ) (lum labels : Mat Nat) (regions i : Nat) :
    0 ≤ (accumulate logf lum labels regions).2.getD i 0 := by
  unfold accumulate
  have h : ∀ (ps : List (Nat × Nat)) (s : List ℝ × List ℝ), (∀ j, 0 ≤ s.2.getD j 0) →
      ∀ j, 0 ≤ (ps.foldl
        (fun s p =>
          let idx : ℝ := ((lum.px p.1 p.2 : Nat) : ℝ)
          let eps : ℝ := 3 / 1000
          let m := max idx eps
          let v := logf m
          let l := labels.px p.1 p.2
          (s.1.set l (s.1.getD l 0 + v), s.2.set l (s.2.getD l 0 + 1))) s).2.getD j 0 := by
    intro ps
    induction ps with
    | nil => intro s hs j; exact hs j
    | cons p t ih =>
      intro s hs j
      rw [List.foldl_cons]
      apply ih
      intro k
      exact getD_set_nonneg _ _ _ _ (by have := hs (labels.px p.1 p.2); linarith) hs
  apply h
  intro j
  rw [List.getD_eq_getElem?_getD]
  by_cases hj : j < regions
  · simp [hj]
  · simp [hj]

/-- The four guarded divisors of the gain and tone-mapping steps are positive:
`count[i] + 0.003`, `exp(v)`, `E_r + 1` and `lum + 0.003`. -/
theorem guarded_divisors_pos (logf : ℝ → ℝ) (lum labels lumF : Mat Nat) (i y x : Nat) :
    0 < countDivisor (accumulate logf lum labels 7).2 i ∧
    0 < Real.exp (logAverage (accumulate logf lum labels 7).1
          (accumulate logf lum labels 7).2 i) ∧
    0 < scaled lumF (gainOf Real.exp (accumulate logf lum labels 7).1
          (accumulate logf lum labels 7).2 i) y x + 1 ∧
    0 < ((lumF.px y x : Nat) : ℝ) + 3 / 1000 := by
  refine ⟨?_, Real.exp_pos _, ?_, ?_⟩
  · unfold countDivisor
    have := accumulate_count_nonneg logf lum labels 7 i
    linarith
  · unfold scaled gainOf
    have h1 : (0 : ℝ) ≤ ((lumF.px y x : Nat) : ℝ) := Nat.cast_nonneg _
    have h2 : (0 : ℝ) < 18 / 100 / Real.exp (logAverage (accumulate logf lum labels 7).1
        (accumulate logf lum labels 7).2 i) := div_pos (by norm_num) (Real.exp_pos _)
    have := mul_nonneg h1 (le_of_lt h2)
    linarith
  · have h1 : (0 : ℝ) ≤ ((lumF.px y x : Nat) : ℝ) := Nat.cast_nonneg _
    linarith

/-! ### `extract`: further properties -/

theorem extract_eq_of_bounds (lum : List Nat) (R lo hi : Nat) (h8 : ∀ x ∈ lum, x < 256)
    (hR1 : 1 ≤ R) (hlo : lo ∈ lum) (hhi : hi ∈ lum) (hb : ∀ x ∈ lum, lo ≤ x ∧ x ≤ hi) :
    extract lum R = some (lum.map (bandOf ((hi - lo) / R) lo R)) := by
  have hne : lum ≠ [] := List.ne_nil_of_mem hlo
  obtain ⟨lo', hi', hlo', hhi', hb', he⟩ := extract_eq lum R hne h8 hR1
  have e1 : lo' = lo := le_antisymm (hb' lo hlo).1 (hb lo' hlo').1
  have e2 : hi' = hi := le_antisymm (hb hi' hhi').2 (hb' hi hhi).2
  subst e1 e2
  exact he

theorem bandOf_anti (te lo R x y : Nat) (hx : lo ≤ x) (hxy : x ≤ y) :
    bandOf te lo R y ≤ bandOf te lo R x := by
  unfold bandOf
  by_cases hy : lo ≤ y ∧ y < te * (R - 1) + lo
  · rw [if_pos hy, if_pos ⟨hx, by omega⟩]
    have h : (x - lo) / te ≤ (y - lo) / te := Nat.div_le_div_right (by omega)
    generalize (x - lo) / te = a at h
    generalize (y - lo) / te = b at h
    omega
  · rw [if_neg hy]
    exact Nat.zero_le _

theorem bandOf_bottom (te lo R : Nat) (hR2 : 2 ≤ R) (hte : 1 ≤ te) :
    bandOf te lo R lo = R - 1 := by
  unfold bandOf
  have h : lo < te * (R - 1) + lo := by
    have : 1 ≤ te * (R - 1) := Nat.mul_pos hte (by omega)
    omega
  rw [if_pos ⟨le_rfl, h⟩]
  simp

theorem bandOf_zero_width (lo R x : Nat) (hx : lo ≤ x) : bandOf 0 lo R x = 0 := by
  unfold bandOf
  rw [if_neg (by omega)]

/-- C14: for a non-empty 8-bit luminance image with minimum `lo`, maximum `hi`
and a region count `R ≥ 2` with `hi - lo ≥ R`, `extract` gives every pixel at the
minimum the label `R - 1` and every pixel at the maximum the label 0. -/
theorem extract_darkest_and_brightest (lum : List Nat) (R lo hi : Nat)
    (h8 : ∀ x ∈ lum, x < 256) (hR2 : 2 ≤ R)
    (hlo : lo ∈ lum) (hhi : hi ∈ lum) (hb : ∀ x ∈ lum, lo ≤ x ∧ x ≤ hi)
    (hdiff : R ≤ hi - lo) :
    ∃ labels, extract lum R = some labels ∧ labels.length = lum.length ∧
      R - 1 ≠ 0 ∧
      ∀ (i : Nat) (h1 : i < lum.length) (h2 : i < labels.length),
        (lum[i] = lo → labels[i] = R - 1) ∧ (lum[i] = hi → labels[i] = 0) := by
  refine ⟨_, extract_eq_of_bounds lum R lo hi h8 (by omega) hlo hhi hb, by simp, by omega, ?_⟩
  intro i h1 h2
  rw [List.getElem_map]
  have hte : 1 ≤ (hi - lo) / R := (Nat.one_le_div_iff (by omega)).mpr hdiff
  constructor
  · intro h
    rw [h]
    exact bandOf_bottom _ _ _ hR2 hte
  · intro h
    rw [h]
    apply bandOf_top
    have h4 : lo ≤ hi := (hb hi hhi).1
    have h5 := div_mul_pred_le (hi - lo) R
    omega

/-- Witness for C14: half the image at 30, half at 220, two regions; the labels
are 1 for the dark half and 0 for the bright half. -/
theorem extract_darkest_and_brightest_witness :
    extract [30, 30, 220, 220] 2 = some [1, 1, 0, 0] ∧
    ∃ labels, extract [30, 30, 220, 220] 2 = some labels ∧
      labels.length = [30, 30, 220, 220].length ∧
      2 - 1 ≠ 0 ∧
      ∀ (i : Nat) (h1 : i < [30, 30, 220, 220].length) (h2 : i < labels.length),
        ([30, 30, 220, 220][i] = 30 → labels[i] = 2 - 1) ∧
        ([30, 30, 220, 220][i] = 220 → labels[i] = 0) :=
  ⟨by decide,
    extract_darkest_and_brightest [30, 30, 220, 220] 2 30 220 (by decide) (by decide)
      (by decide) (by decide) (by decide) (by decide)⟩

/-- C16: for a non-empty 8-bit luminance image with minimum `lo`, maximum `hi`
and a region count `R ≥ 1` with `hi - lo < R` (in particular a uniform image),
`extract` gives every pixel the label 0. -/
theorem extract_narrow_range_collapses (lum : List Nat) (R lo hi : Nat)
    (h8 : ∀ x ∈ lum, x < 256) (hR1 : 1 ≤ R)
    (hlo : lo ∈ lum) (hhi : hi ∈ lum) (hb : ∀ x ∈ lum, lo ≤ x ∧ x ≤ hi)
    (hdiff : hi - lo < R) :
    ∃ labels, extract lum R = some labels ∧ labels.length = lum.length ∧
      ∀ l ∈ labels, l = 0 := by
  refine ⟨_, extract_eq_of_bounds lum R lo hi h8 hR1 hlo hhi hb, by simp, ?_⟩
  intro l hl
  obtain ⟨x, hx, rfl⟩ := List.mem_map.mp hl
  rw [Nat.div_eq_of_lt hdiff]
  exact bandOf_zero_width _ _ _ (hb x hx).1

/-- Witness for C16: the uniform image of level 128 with seven regions. -/
theorem extract_narrow_range_collapses_witness :
    ∃ labels, extract [128, 128, 128] 7 = some labels ∧
      labels.length = [128, 128, 128].length ∧ ∀ l ∈ labels, l = 0 :=
  extract_narrow_range_collapses [128, 128, 128] 7 128 128 (by decide) (by decide)
    (by decide) (by decide) (by decide) (by decide)

/-- C18: for a non-empty 8-bit luminance image and `R ≥ 1`, the labelling of
`extract` is order-reversing on the pixels: a pixel that is at least as bright as
another one never gets a higher band index. -/
theorem extract_order_reversing (lum : List Nat) (R : Nat) (hne : lum ≠ [])
    (h8 : ∀ x ∈ lum, x < 256) (hR1 : 1 ≤ R) :
    ∃ labels, extract lum R = some labels ∧ labels.length = lum.length ∧
      ∀ (i j : Nat) (hi1 : i < lum.length) (hi2 : i < labels.length)
        (hj1 : j < lum.length) (hj2 : j < labels.length),
        lum[i] ≤ lum[j] → labels[j] ≤ labels[i] := by
  obtain ⟨lo, hi, _, _, hb, he⟩ := extract_eq lum R hne h8 hR1
  refine ⟨_, he, by simp, ?_⟩
  intro i j hi1 hi2 hj1 hj2 hij
  rw [List.getElem_map, List.getElem_map]
  exact bandOf_anti _ _ _ _ _ (hb _ (List.getElem_mem hi1)).1 hij

/-- Witness for C18 on the image `[0, 6, 10, 3]` with three regions. -/
theorem extract_order_reversing_witness :
    ∃ labels, extract [0, 6, 10, 3] 3 = some labels ∧
      labels.length = [0, 6, 10, 3].length ∧
      ∀ (i j : Nat) (hi1 : i < [0, 6, 10, 3].length) (hi2 : i < labels.length)
        (hj1 : j < [0, 6, 10, 3].length) (hj2 : j < labels.length),
        [0, 6, 10, 3][i] ≤ [0, 6, 10, 3][j] → labels[j] ≤ labels[i] :=
  extract_order_reversing [0, 6, 10, 3] 3 (by decide) (by decide) (by decide)

theorem tableStep_eq_branch (temp : List Nat) (regions i t j : Nat) :
    tableStep temp regions i t j = if branchFires temp regions i j then j % 256 else t := by
  unfold tableStep branchFires
  by_cases hj : j = 0
  · simp only [hj, if_true, decide_eq_true_eq]
  · simp only [hj, if_false, decide_eq_true_eq]

theorem branch_exists (te lo R L : Nat) (hR1 : 1 ≤ R) (hL : lo ≤ L) :
    ∃ j, j < R ∧ branchFires (buildTemp te lo R) R L j = true := by
  by_cases htop : te * (R - 1) + lo ≤ L
  · refine ⟨0, by omega, ?_⟩
    unfold branchFires
    simp only [if_true, Nat.sub_zero, decide_eq_true_eq]
    rw [buildTemp_getD te lo R (R - 1) (by omega)]
    exact htop
  · have hlt : L < te * (R - 1) + lo := Nat.lt_of_not_le htop
    have hte : 0 < te := by
      rcases Nat.eq_zero_or_pos te with h | h
      · subst h; simp at hlt; omega
      · exact h
    have hq : (L - lo) / te < R - 1 := by
      rw [Nat.div_lt_iff_lt_mul hte, Nat.mul_comm]; omega
    have h3 := Nat.div_mul_le_self (L - lo) te
    have h4 := Nat.lt_div_mul_add (a := L - lo) hte
    generalize (L - lo) / te = q at hq h3 h4
    refine ⟨R - 1 - q, by omega, ?_⟩
    unfold branchFires
    have hne : R - 1 - q ≠ 0 := by omega
    have hk : R - (R - 1 - q) - 1 = q := by omega
    simp only [hne, if_false, hk, decide_eq_true_eq]
    rw [buildTemp_getD te lo R q (by omega), buildTemp_getD te lo R (q + 1) (by omega)]
    constructor
    · rw [Nat.mul_comm]; omega
    · rw [Nat.mul_add, Nat.mul_one, Nat.mul_comm]; omega

theorem branch_none_below (te lo R L j : Nat) (hj : j < R) (hL : L < lo) :
    branchFires (buildTemp te lo R) R L j = false := by
  unfold branchFires
  by_cases hj0 : j = 0
  · simp only [hj0, if_true, Nat.sub_zero, decide_eq_false_iff_not]
    rw [buildTemp_getD te lo R (R - 1) (by omega)]
    omega
  · simp only [hj0, if_false, decide_eq_false_iff_not]
    rw [buildTemp_getD te lo R (R - j - 1) (by omega)]
    omega

/-- C17 as stated is false: no image and region count have a level between the
minimum and the maximum that every pass of the table-building loop skips. -/
theorem no_table_gap : ¬ HasTableGap := by
  rintro ⟨lum, R, lo, hi, L, _, _, hR1, _, _, _, _, hL, _, hgap⟩
  obtain ⟨j, hj, hfire⟩ := branch_exists ((hi - lo) / R) lo R L hR1 hL
  rw [hgap j hj] at hfire
  exact Bool.false_ne_true hfire

/-- C17 (amended): for every non-empty 8-bit luminance image with minimum `lo`
and maximum `hi` and every `R ≥ 1`, each level `L` with `lo ≤ L ≤ hi` is stored
to by some pass `j < R` of the table-building loop; the levels no pass stores to
are those below the minimum. -/
theorem table_covers_range (lum : List Nat) (R lo hi L : Nat)
    (_h8 : ∀ x ∈ lum, x < 256) (hR1 : 1 ≤ R)
    (_hlo : lo ∈ lum) (_hhi : hi ∈ lum) (_hb : ∀ x ∈ lum, lo ≤ x ∧ x ≤ hi)
    (hL : lo ≤ L) (_hL2 : L ≤ hi) :
    (∃ j, j < R ∧ branchFires (buildTemp ((hi - lo) / R) lo R) R L j = true) ∧
    ∀ L' j, L' < lo → j < R →
      branchFires (buildTemp ((hi - lo) / R) lo R) R L' j = false :=
  ⟨branch_exists _ lo R L hR1 hL, fun L' j hL' hj => branch_none_below _ lo R L' j hj hL'⟩

/-- Witness for the amended C17: the image `[5, 11, 15]`, three regions (band
width 3 does not divide the range 10), level 11. -/
theorem table_covers_range_witness :
    (∃ j, j < 3 ∧ branchFires (buildTemp ((15 - 5) / 3) 5 3) 3 11 j = true) ∧
    ∀ L' j, L' < 5 → j < 3 →
      branchFires (buildTemp ((15 - 5) / 3) 5 3) 3 L' j = false :=
  table_covers_range [5, 11, 15] 3 5 15 11 (by decide) (by decide) (by decide) (by decide)
    (by decide) (by decide) (by decide)

theorem extract_eq_outcome (lum : List Nat) (R : Nat) :
    extract lum R =
      match extractOutcome lum R with
      | Outcome.labels l => some l
      | _ => none := by
  unfold extract extractOutcome
  simp only
  split
  · split <;> rfl
  · rfl

/-- C13 as stated is false: on the image `[1, 2]` the call with `R = 0` is not
rejected; it reaches the division `diff / regions` of line 122. -/
theorem zero_regions_not_rejected :
    extractOutcome [1, 2] 0 = Outcome.fault 122 ∧ ¬ RejectsZeroRegions [1, 2] := by
  have h : extractOutcome [1, 2] 0 = Outcome.fault 122 := by decide
  refine ⟨h, ?_⟩
  unfold RejectsZeroRegions
  rw [h]
  intro hcon
  cases hcon

/-- C13 (amended): for every non-empty luminance image the call of `extract` with
`R = 0` is not validated; it sorts the samples, then divides by zero at line 122,
and returns no labels. -/
theorem zero_regions_divides_by_zero (lum : List Nat) (hne : lum ≠ []) :
    extractOutcome lum 0 = Outcome.fault 122 ∧ extract lum 0 = none := by
  have hp := List.perm_insertionSort (fun a b : Nat => a ≤ b) lum
  have hne' : lum.insertionSort (fun a b => a ≤ b) ≠ [] := by
    intro h; rw [h] at hp; exact hne hp.symm.eq_nil
  obtain ⟨lo, hlo⟩ : ∃ lo, (lum.insertionSort (fun a b => a ≤ b)).head? = some lo := by
    cases h : lum.insertionSort (fun a b => a ≤ b) with
    | nil => exact absurd h hne'
    | cons a t => exact ⟨a, rfl⟩
  obtain ⟨hi, hhi⟩ : ∃ hi, (lum.insertionSort (fun a b => a ≤ b)).getLast? = some hi :=
    ⟨_, List.getLast?_eq_getLast _ hne'⟩
  have h : extractOutcome lum 0 = Outcome.fault 122 := by
    unfold extractOutcome
    simp only [hlo, hhi, if_true]
  refine ⟨h, ?_⟩
  rw [extract_eq_outcome, h]

/-- Witness for the amended C13 on the image `[1, 2]`. -/
theorem zero_regions_divides_by_zero_witness :
    extractOutcome [1, 2] 0 = Outcome.fault 122 ∧ extract [1, 2] 0 = none :=
  zero_regions_divides_by_zero [1, 2] (by decide)

/-! ### `synEFFromJNI`: the gains -/

theorem mem_positions (rows cols : Nat) (p : Nat × Nat) :
    p ∈ positions rows cols ↔ p.1 < rows ∧ p.2 < cols := by
  unfold positions
  simp only [List.mem_flatMap, List.mem_range, List.mem_map]
  constructor
  · rintro ⟨y, hy, x, hx, rfl⟩
    exact ⟨hy, hx⟩
  · rintro ⟨h1, h2⟩
    exact ⟨p.1, h1, p.2, h2, rfl⟩

theorem getD_set (l : List ℝ) (k i : Nat) (v : ℝ) :
    (l.set k v).getD i 0 = if k = i ∧ k < l.length then v else l.getD i 0 := by
  rw [List.getD_eq_getElem?_getD, List.getElem?_set, List.getD_eq_getElem?_getD]
  by_cases hki : k = i
  · subst hki
    by_cases hk : k < l.length
    · simp [hk]
    · have hnone : l[k]? = none := List.getElem?_eq_none (Nat.le_of_not_lt hk)
      simp [hk, hnone]
  · simp [hki]

/-- The accumulation step of lines 206-211 for one position. -/
theorem accumulate_eq_foldl (logf : ℝ → ℝ) (lum labels : Mat Nat) (regions : Nat) :
    accumulate logf lum labels regions =
      (positions lum.rows lum.cols).foldl
        (fun s p =>
          (s.1.set (labels.px p.1 p.2)
              (s.1.getD (labels.px p.1 p.2) 0 +
                logf (max ((lum.px p.1 p.2 : Nat) : ℝ) (3 / 1000))),
            s.2.set (labels.px p.1 p.2) (s.2.getD (labels.px p.1 p.2) 0 + 1)))
        (List.replicate regions 0, List.replicate regions 0) := rfl

theorem getD_replicate_zero (n i : Nat) : (List.replicate n (0 : ℝ)).getD i 0 = 0 := by
  rw [List.getD_eq_getElem?_getD]
  by_cases h : i < n
  · simp [h]
  · simp [h]

theorem accumulate_untouched (logf : ℝ → ℝ) (lum labels : Mat Nat) (regions i : Nat)
    (hempty : ∀ y x, y < lum.rows → x < lum.cols → labels.px y x ≠ i) :
    (accumulate logf lum labels regions).1.getD i 0 = 0 ∧
      (accumulate logf lum labels regions).2.getD i 0 = 0 := by
  rw [accumulate_eq_foldl]
  have h : ∀ (ps : List (Nat × Nat)) (s : List ℝ × List ℝ),
      (∀ p ∈ ps, labels.px p.1 p.2 ≠ i) → s.1.getD i 0 = 0 → s.2.getD i 0 = 0 →
      (ps.foldl
        (fun s p =>
          (s.1.set (labels.px p.1 p.2)
              (s.1.getD (labels.px p.1 p.2) 0 +
                logf (max ((lum.px p.1 p.2 : Nat) : ℝ) (3 / 1000))),
            s.2.set (labels.px p.1 p.2) (s.2.getD (labels.px p.1 p.2) 0 + 1))) s).1.getD i 0 = 0 ∧
      (ps.foldl
        (fun s p =>
          (s.1.set (labels.px p.1 p.2)
              (s.1.getD (labels.px p.1 p.2) 0 +
                logf (max ((lum.px p.1 p.2 : Nat) : ℝ) (3 / 1000))),
            s.2.set (labels.px p.1 p.2) (s.2.getD (labels.px p.1 p.2) 0 + 1))) s).2.getD i 0 = 0 := by
    intro ps
    induction ps with
    | nil => intro s _ h1 h2; exact ⟨h1, h2⟩
    | cons p t ih =>
      intro s hps h1 h2
      rw [List.foldl_cons]
      have hp : labels.px p.1 p.2 ≠ i := hps p (List.mem_cons_self _ _)
      apply ih _ (fun q hq => hps q (List.mem_cons_of_mem _ hq))
      · rw [getD_set, if_neg (fun hc => hp hc.1)]
        exact h1
      · rw [getD_set, if_neg (fun hc => hp hc.1)]
        exact h2
  apply h
  · intro p hp
    rw [mem_positions] at hp
    exact hempty p.1 p.2 hp.1 hp.2
  · exact getD_replicate_zero _ _
  · exact getD_replicate_zero _ _

/-- C11: for two regions `r`, `s` whose log-average luminance estimates satisfy
`v_r ≥ v_s`, the gains `a = 0.18 / exp(v)` satisfy `a_r ≤ a_s`. -/
theorem gain_antitone_in_log_average (sums count : List ℝ) (r s : Nat)
    (h : logAverage sums count s ≤ logAverage sums count r) :
    gainOf Real.exp sums count r ≤ gainOf Real.exp sums count s := by
  unfold gainOf
  exact div_le_div_of_nonneg_left (by norm_num) (Real.exp_pos _) (Real.exp_le_exp.mpr h)

/-- Witness for C11: two synthetic regions with log-sums 2 and 1 over one pixel
each. -/
theorem gain_antitone_in_log_average_witness :
    gainOf Real.exp [2, 1] [1, 1] 0 ≤ gainOf Real.exp [2, 1] [1, 1] 1 :=
  gain_antitone_in_log_average [2, 1] [1, 1] 0 1 (by
    simp only [logAverage, countDivisor, List.getD_cons_zero, List.getD_cons_succ]
    norm_num)

/-- C12: for a region `i` that no pixel of the label map is assigned to, the
accumulated log-sum and count are 0, the divisor of line 219 is the floor 0.003,
the log-average is `0 / 0.003 = 0` and the gain is `0.18 / exp(0) = 0.18`. -/
theorem empty_region_gain (logf : ℝ → ℝ) (lum labels : Mat Nat) (i : Nat)
    (hempty : ∀ y x, y < lum.rows → x < lum.cols → labels.px y x ≠ i) :
    (accumulate logf lum labels 7).1.getD i 0 = 0 ∧
    (accumulate logf lum labels 7).2.getD i 0 = 0 ∧
    countDivisor (accumulate logf lum labels 7).2 i = 3 / 1000 ∧
    logAverage (accumulate logf lum labels 7).1 (accumulate logf lum labels 7).2 i = 0 ∧
    gainOf Real.exp (accumulate logf lum labels 7).1 (accumulate logf lum labels 7).2 i =
      18 / 100 := by
  obtain ⟨h1, h2⟩ := accumulate_untouched logf lum labels 7 i hempty
  have h3 : countDivisor (accumulate logf lum labels 7).2 i = 3 / 1000 := by
    unfold countDivisor
    rw [h2]
    norm_num
  have h4 : logAverage (accumulate logf lum labels 7).1
      (accumulate logf lum labels 7).2 i = 0 := by
    unfold logAverage
    rw [h1, zero_div]
  refine ⟨h1, h2, h3, h4, ?_⟩
  unfold gainOf
  rw [h4, Real.exp_zero, div_one]

/-- Witness for C12: a 1×2 luminance image whose pixels both carry label 0,
region 3. -/
theorem empty_region_gain_witness :
    (accumulate Real.log ⟨1, 2, fun _ _ => 57⟩ ⟨1, 2, fun _ _ => 0⟩ 7).1.getD 3 0 = 0 ∧
    (accumulate Real.log ⟨1, 2, fun _ _ => 57⟩ ⟨1, 2, fun _ _ => 0⟩ 7).2.getD 3 0 = 0 ∧
    countDivisor (accumulate Real.log ⟨1, 2, fun _ _ => 57⟩ ⟨1, 2, fun _ _ => 0⟩ 7).2 3 =
      3 / 1000 ∧
    logAverage (accumulate Real.log ⟨1, 2, fun _ _ => 57⟩ ⟨1, 2, fun _ _ => 0⟩ 7).1
      (accumulate Real.log ⟨1, 2, fun _ _ => 57⟩ ⟨1, 2, fun _ _ => 0⟩ 7).2 3 = 0 ∧
    gainOf Real.exp (accumulate Real.log ⟨1, 2, fun _ _ => 57⟩ ⟨1, 2, fun _ _ => 0⟩ 7).1
      (accumulate Real.log ⟨1, 2, fun _ _ => 57⟩ ⟨1, 2, fun _ _ => 0⟩ 7).2 3 = 18 / 100 :=
  empty_region_gain Real.log ⟨1, 2, fun _ _ => 57⟩ ⟨1, 2, fun _ _ => 0⟩ 3
    (fun _ _ _ _ => by show (0 : Nat) ≠ 3; decide)

theorem length_set_real (l : List ℝ) (k : Nat) (v : ℝ) : (l.set k v).length = l.length :=
  List.length_set _ _ _

/-- Bounds on the accumulated log-sum of region `i`: if every term added for the
region lies in `[a, b]`, the sum lies between `a * count` and `b * count`. -/
theorem accumulate_bounds (logf : ℝ → ℝ) (lum labels : Mat Nat) (regions i : Nat) (a b : ℝ)
    (h : ∀ y x, y < lum.rows → x < lum.cols → labels.px y x = i →
      a ≤ logf (max ((lum.px y x : Nat) : ℝ) (3 / 1000)) ∧
        logf (max ((lum.px y x : Nat) : ℝ) (3 / 1000)) ≤ b) :
    0 ≤ (accumulate logf lum labels regions).2.getD i 0 ∧
    a * (accumulate logf lum labels regions).2.getD i 0 ≤
      (accumulate logf lum labels regions).1.getD i 0 ∧
    (accumulate logf lum labels regions).1.getD i 0 ≤
      b * (accumulate logf lum labels regions).2.getD i 0 := by
  rw [accumulate_eq_foldl]
  have key : ∀ (ps : List (Nat × Nat)) (s : List ℝ × List ℝ),
      (∀ p ∈ ps, labels.px p.1 p.2 = i →
        a ≤ logf (max ((lum.px p.1 p.2 : Nat) : ℝ) (3 / 1000)) ∧
          logf (max ((lum.px p.1 p.2 : Nat) : ℝ) (3 / 1000)) ≤ b) →
      s.1.length = s.2.length → 0 ≤ s.2.getD i 0 → a * s.2.getD i 0 ≤ s.1.getD i 0 →
      s.1.getD i 0 ≤ b * s.2.getD i 0 →
      0 ≤ (ps.foldl
        (fun s p =>
          (s.1.set (labels.px p.1 p.2)
              (s.1.getD (labels.px p.1 p.2) 0 +
                logf (max ((lum.px p.1 p.2 : Nat) : ℝ) (3 / 1000))),
            s.2.set (labels.px p.1 p.2) (s.2.getD (labels.px p.1 p.2) 0 + 1))) s).2.getD i 0 ∧
      a * (ps.foldl
        (fun s p =>
          (s.1.set (labels.px p.1 p.2)
              (s.1.getD (labels.px p.1 p.2) 0 +
                logf (max ((lum.px p.1 p.2 : Nat) : ℝ) (3 / 1000))),
            s.2.set (labels.px p.1 p.2) (s.2.getD (labels.px p.1 p.2) 0 + 1))) s).2.getD i 0 ≤
        (ps.foldl
        (fun s p =>
          (s.1.set (labels.px p.1 p.2)
              (s.1.getD (labels.px p.1 p.2) 0 +
                logf (max ((lum.px p.1 p.2 : Nat) : ℝ) (3 / 1000))),
            s.2.set (labels.px p.1 p.2) (s.2.getD (labels.px p.1 p.2) 0 + 1))) s).1.getD i 0 ∧
      (ps.foldl
        (fun s p =>
          (s.1.set (labels.px p.1 p.2)
              (s.1.getD (labels.px p.1 p.2) 0 +
                logf (max ((lum.px p.1 p.2 : Nat) : ℝ) (3 / 1000))),
            s.2.set (labels.px p.1 p.2) (s.2.getD (labels.px p.1 p.2) 0 + 1))) s).1.getD i 0 ≤
        b * (ps.foldl
        (fun s p =>
          (s.1.set (labels.px p.1 p.2)
              (s.1.getD (labels.px p.1 p.2) 0 +
                logf (max ((lum.px p.1 p.2 : Nat) : ℝ) (3 / 1000))),
            s.2.set (labels.px p.1 p.2) (s.2.getD (labels.px p.1 p.2) 0 + 1))) s).2.getD i 0 := by
    intro ps
    induction ps with
    | nil => intro s _ _ h1 h2 h3; exact ⟨h1, h2, h3⟩
    | cons p t ih =>
      intro s hps hlen h1 h2 h3
      rw [List.foldl_cons]
      apply ih _ (fun q hq => hps q (List.mem_cons_of_mem _ hq))
      · simp only [length_set_real, hlen]
      all_goals
        simp only [getD_set, hlen]
        have hv := hps p (List.mem_cons_self _ _)
        split_ifs with hc
        · obtain ⟨hv1, hv2⟩ := hv hc.1
          rw [hc.1]
          linarith
        · first | exact h1 | exact h2 | exact h3
  apply key
  · intro p hp hl
    rw [mem_positions] at hp
    exact h p.1 p.2 hp.1 hp.2 hl
  · simp
  · simp [getD_replicate_zero]
  · simp [getD_replicate_zero]
  · simp [getD_replicate_zero]

theorem addOneSat_bounds (lum : Mat Nat) (y x : Nat) :
    1 ≤ (addOneSat lum).px y x ∧ (addOneSat lum).px y x ≤ 255 := by
  unfold addOneSat
  simp only
  omega

theorem log_sample_bounds (n : Nat) (h1 : 1 ≤ n) (h2 : n ≤ 255) :
    max ((n : Nat) : ℝ) (3 / 1000) = (n : ℝ) ∧ 0 ≤ Real.log (max ((n : Nat) : ℝ) (3 / 1000)) ∧
      Real.log (max ((n : Nat) : ℝ) (3 / 1000)) ≤ Real.log 255 := by
  have hn1 : (1 : ℝ) ≤ (n : ℝ) := by exact_mod_cast h1
  have hn2 : (n : ℝ) ≤ 255 := by exact_mod_cast h2
  have hmax : max ((n : Nat) : ℝ) (3 / 1000) = (n : ℝ) := max_eq_left (by linarith)
  rw [hmax]
  exact ⟨rfl, Real.log_nonneg hn1, Real.log_le_log (by linarith) hn2⟩

/-- C19: for every downsampled luminance image and label map with labels in
`[0, 7)`, after the saturating `+1` every sample is in `1..255`, the floor
`max(value, 0.003)` is not active and each logarithm is in `[0, ln 255]`; every
log-average `v_r` lies in `[0, ln 255)` and every gain satisfies
`0.18/255 < a_r ≤ 0.18`. -/
theorem gain_bounds (lum labels : Mat Nat) (r : Nat)
    (_hlab : ∀ y x, labels.px y x < 7) :
    (∀ y x, 1 ≤ (addOneSat lum).px y x ∧ (addOneSat lum).px y x ≤ 255 ∧
      max (((addOneSat lum).px y x : Nat) : ℝ) (3 / 1000) = (((addOneSat lum).px y x : Nat) : ℝ) ∧
      0 ≤ Real.log (max (((addOneSat lum).px y x : Nat) : ℝ) (3 / 1000)) ∧
      Real.log (max (((addOneSat lum).px y x : Nat) : ℝ) (3 / 1000)) ≤ Real.log 255) ∧
    0 ≤ logAverage (accumulate Real.log (addOneSat lum) labels 7).1
          (accumulate Real.log (addOneSat lum) labels 7).2 r ∧
    logAverage (accumulate Real.log (addOneSat lum) labels 7).1
          (accumulate Real.log (addOneSat lum) labels 7).2 r < Real.log 255 ∧
    18 / 100 / 255 < gainOf Real.exp (accumulate Real.log (addOneSat lum) labels 7).1
          (accumulate Real.log (addOneSat lum) labels 7).2 r ∧
    gainOf Real.exp (accumulate Real.log (addOneSat lum) labels 7).1
          (accumulate Real.log (addOneSat lum) labels 7).2 r ≤ 18 / 100 := by
  have hs : ∀ y x, 1 ≤ (addOneSat lum).px y x ∧ (addOneSat lum).px y x ≤ 255 ∧
      max (((addOneSat lum).px y x : Nat) : ℝ) (3 / 1000) =
        (((addOneSat lum).px y x : Nat) : ℝ) ∧
      0 ≤ Real.log (max (((addOneSat lum).px y x : Nat) : ℝ) (3 / 1000)) ∧
      Real.log (max (((addOneSat lum).px y x : Nat) : ℝ) (3 / 1000)) ≤ Real.log 255 := by
    intro y x
    obtain ⟨h1, h2⟩ := addOneSat_bounds lum y x
    obtain ⟨h3, h4, h5⟩ := log_sample_bounds _ h1 h2
    exact ⟨h1, h2, h3, h4, h5⟩
  obtain ⟨hc, hlo, hhi⟩ := accumulate_bounds Real.log (addOneSat lum) labels 7 r 0
    (Real.log 255) (fun y x _ _ _ => ⟨(hs y x).2.2.2.1, (hs y x).2.2.2.2⟩)
  have hL : 0 < Real.log 255 := Real.log_pos (by norm_num)
  rw [zero_mul] at hlo
  have hd : 0 < countDivisor (accumulate Real.log (addOneSat lum) labels 7).2 r := by
    unfold countDivisor
    linarith
  have hv0 : 0 ≤ logAverage (accumulate Real.log (addOneSat lum) labels 7).1
      (accumulate Real.log (addOneSat lum) labels 7).2 r := by
    unfold logAverage
    exact div_nonneg hlo (le_of_lt hd)
  have hv1 : logAverage (accumulate Real.log (addOneSat lum) labels 7).1
      (accumulate Real.log (addOneSat lum) labels 7).2 r < Real.log 255 := by
    unfold logAverage
    rw [div_lt_iff₀ hd]
    unfold countDivisor
    nlinarith
  refine ⟨hs, hv0, hv1, ?_, ?_⟩
  · unfold gainOf
    apply div_lt_div_of_pos_left (by norm_num) (Real.exp_pos _)
    calc Real.exp (logAverage (accumulate Real.log (addOneSat lum) labels 7).1
          (accumulate Real.log (addOneSat lum) labels 7).2 r)
        < Real.exp (Real.log 255) := Real.exp_lt_exp.mpr hv1
      _ = 255 := Real.exp_log (by norm_num)
  · unfold gainOf
    rw [div_le_iff₀ (Real.exp_pos _)]
    have h1 : 1 ≤ Real.exp (logAverage (accumulate Real.log (addOneSat lum) labels 7).1
        (accumulate Real.log (addOneSat lum) labels 7).2 r) := Real.one_le_exp hv0
    nlinarith

/-- Witness for C19: a 1×2 luminance image with samples 56 and labels 0,
region 0. -/
theorem gain_bounds_witness :
    18 / 100 / 255 <
        gainOf Real.exp
          (accumulate Real.log (addOneSat ⟨1, 2, fun _ _ => 56⟩) ⟨1, 2, fun _ _ => 0⟩ 7).1
          (accumulate Real.log (addOneSat ⟨1, 2, fun _ _ => 56⟩) ⟨1, 2, fun _ _ => 0⟩ 7).2 0 ∧
      gainOf Real.exp
          (accumulate Real.log (addOneSat ⟨1, 2, fun _ _ => 56⟩) ⟨1, 2, fun _ _ => 0⟩ 7).1
          (accumulate Real.log (addOneSat ⟨1, 2, fun _ _ => 56⟩) ⟨1, 2, fun _ _ => 0⟩ 7).2 0 ≤
        18 / 100 :=
  (gain_bounds ⟨1, 2, fun _ _ => 56⟩ ⟨1, 2, fun _ _ => 0⟩ 0
    (fun _ _ => by show (0 : Nat) < 7; decide)).2.2.2

/-! ### `synEFFromJNI`: gains of the bands of `extract` -/

theorem positions_succ (n cols : Nat) :
    positions (n + 1) cols = positions n cols ++ (List.range cols).map (fun x => (n, x)) := by
  unfold positions
  rw [List.range_succ, List.flatMap_append]
  simp

theorem getElem?_positions (rows cols y x : Nat) (hy : y < rows) (hx : x < cols) :
    (positions rows cols)[y * cols + x]? = some (y, x) := by
  induction rows with
  | zero => omega
  | succ n ih =>
    rw [positions_succ]
    by_cases hyn : y < n
    · have hlt : y * cols + x < (positions n cols).length := by
        rw [length_positions]
        have : (y + 1) * cols ≤ n * cols := Nat.mul_le_mul_right _ hyn
        rw [Nat.add_mul, Nat.one_mul] at this
        omega
      rw [List.getElem?_append_left hlt]
      exact ih hyn
    · have hyeq : y = n := by omega
      subst hyeq
      have hge : (positions y cols).length ≤ y * cols + x := by
        rw [length_positions]
        omega
      rw [List.getElem?_append_right hge, length_positions, Nat.add_sub_cancel_left,
        List.getElem?_map, List.getElem?_range hx]
      rfl

theorem getD_map_toList (lum : Mat Nat) (f : Nat → Nat) (y x : Nat) (hy : y < lum.rows)
    (hx : x < lum.cols) :
    (lum.toList.map f).getD (y * lum.cols + x) 0 = f (lum.px y x) := by
  unfold Mat.toList
  rw [List.getD_eq_getElem?_getD, List.getElem?_map, List.getElem?_map,
    getElem?_positions _ _ _ _ hy hx]
  rfl

theorem mem_toList (lum : Mat Nat) (v : Nat) :
    v ∈ lum.toList ↔ ∃ y x, y < lum.rows ∧ x < lum.cols ∧ lum.px y x = v := by
  unfold Mat.toList
  rw [List.mem_map]
  constructor
  · rintro ⟨p, hp, rfl⟩
    rw [mem_positions] at hp
    exact ⟨p.1, p.2, hp.1, hp.2, rfl⟩
  · rintro ⟨y, x, hy, hx, rfl⟩
    exact ⟨(y, x), (mem_positions _ _ _).mpr ⟨hy, hx⟩, rfl⟩

/-- The label image of `extractMat` in closed form. -/
theorem extractMat_eq (lum labels : Mat Nat) (R : Nat) (hR1 : 1 ≤ R)
    (h8 : ∀ y x, y < lum.rows → x < lum.cols → lum.px y x < 256)
    (hex : extractMat lum R = some labels) :
    ∃ lo te, (∀ y x, y < lum.rows → x < lum.cols → lo ≤ lum.px y x) ∧
      ∀ y x, y < lum.rows → x < lum.cols → labels.px y x = bandOf te lo R (lum.px y x) := by
  have hne : lum.toList ≠ [] := by
    intro h
    unfold extractMat at hex
    rw [h] at hex
    simp [extract] at hex
  have h8' : ∀ v ∈ lum.toList, v < 256 := by
    intro v hv
    obtain ⟨y, x, hy, hx, rfl⟩ := (mem_toList lum v).mp hv
    exact h8 y x hy hx
  obtain ⟨lo, hi, _, _, hb, he⟩ := extract_eq lum.toList R hne h8' hR1
  unfold extractMat at hex
  rw [he] at hex
  simp only [Option.map_some', Option.some.injEq] at hex
  refine ⟨lo, (hi - lo) / R, ?_, ?_⟩
  · intro y x hy hx
    exact (hb _ ((mem_toList lum _).mpr ⟨y, x, hy, hx, rfl⟩)).1
  · intro y x hy hx
    rw [← hex]
    exact getD_map_toList lum _ y x hy hx

theorem bandOf_ge_boundary (te lo j x : Nat) (hj : j < 7) (hx : lo ≤ x)
    (h : bandOf te lo 7 x = j) : te * (6 - j) + lo ≤ x := by
  unfold bandOf at h
  by_cases hc : lo ≤ x ∧ x < te * (7 - 1) + lo
  · rw [if_pos hc] at h
    have h3 := Nat.div_mul_le_self (x - lo) te
    generalize (x - lo) / te = q at h h3
    have hq : 6 - j ≤ q := by omega
    have : te * (6 - j) ≤ te * q := Nat.mul_le_mul_left _ hq
    rw [Nat.mul_comm q te] at h3
    omega
  · rw [if_neg hc] at h
    have hx2 : ¬ x < te * (7 - 1) + lo := fun h' => hc ⟨hx, h'⟩
    subst h
    simpa using Nat.le_of_not_lt hx2

theorem bandOf_lt_boundary (te lo j k x : Nat) (hjk : j < k)
    (h : bandOf te lo 7 x = k) : x < te * (6 - j) + lo := by
  unfold bandOf at h
  by_cases hc : lo ≤ x ∧ x < te * (7 - 1) + lo
  · rw [if_pos hc] at h
    obtain ⟨_, hc2⟩ := hc
    have hte : 0 < te := by
      rcases Nat.eq_zero_or_pos te with h0 | h0
      · subst h0; simp at hc2; omega
      · exact h0
    have h4 := Nat.lt_div_mul_add (a := x - lo) hte
    generalize (x - lo) / te = q at h h4
    have hq : q + 1 ≤ 6 - j := by omega
    have h5 : te * (q + 1) ≤ te * (6 - j) := Nat.mul_le_mul_left _ hq
    rw [Nat.mul_add, Nat.mul_one, Nat.mul_comm te q] at h5
    omega
  · rw [if_neg hc] at h
    omega

theorem log_addOne_mono (a b : Nat) (hab : a ≤ b) :
    Real.log (max (((min (a + 1) 255 : Nat) : Nat) : ℝ) (3 / 1000)) ≤
      Real.log (max (((min (b + 1) 255 : Nat) : Nat) : ℝ) (3 / 1000)) := by
  have ha : 1 ≤ min (a + 1) 255 := by omega
  have hb : 1 ≤ min (b + 1) 255 := by omega
  rw [(log_sample_bounds _ ha (by omega)).1, (log_sample_bounds _ hb (by omega)).1]
  apply Real.log_le_log
  · exact_mod_cast ha
  · have : min (a + 1) 255 ≤ min (b + 1) 255 := by omega
    exact_mod_cast this

/-- The log-average of a brighter band that holds at least as many pixels as a
darker band is at least the log-average of the darker band. -/
theorem logAverage_le_of_brighter (lum labels : Mat Nat) (j k : Nat)
    (h8 : ∀ y x, y < lum.rows → x < lum.cols → lum.px y x < 256)
    (hex : extractMat lum 7 = some labels) (hjk : j < k) (hk : k < 7)
    (hcount : (accumulate Real.log (addOneSat lum) labels 7).2.getD k 0 ≤
      (accumulate Real.log (addOneSat lum) labels 7).2.getD j 0) :
    logAverage (accumulate Real.log (addOneSat lum) labels 7).1
        (accumulate Real.log (addOneSat lum) labels 7).2 k ≤
      logAverage (accumulate Real.log (addOneSat lum) labels 7).1
        (accumulate Real.log (addOneSat lum) labels 7).2 j := by
  obtain ⟨lo, te, hlo, hlab⟩ := extractMat_eq lum labels 7 (by decide) h8 hex
  have hm0 : 0 ≤ Real.log (max (((min (te * (6 - j) + lo + 1) 255 : Nat) : Nat) : ℝ)
      (3 / 1000)) :=
    (log_sample_bounds _ (by omega) (by omega)).2.1
  obtain ⟨_, hj1, _⟩ := accumulate_bounds Real.log (addOneSat lum) labels 7 j
    (Real.log (max (((min (te * (6 - j) + lo + 1) 255 : Nat) : Nat) : ℝ) (3 / 1000)))
    (Real.log 255)
    (fun y x hy hx hl => by
      have hb := bandOf_ge_boundary te lo j (lum.px y x) (by omega) (hlo y x hy hx)
        (by rw [← hlab y x hy hx]; exact hl)
      obtain ⟨h1, h2⟩ := addOneSat_bounds lum y x
      exact ⟨log_addOne_mono _ _ hb, (log_sample_bounds _ h1 h2).2.2⟩)
  obtain ⟨hk0, hk1, hk2⟩ := accumulate_bounds Real.log (addOneSat lum) labels 7 k 0
    (Real.log (max (((min (te * (6 - j) + lo + 1) 255 : Nat) : Nat) : ℝ) (3 / 1000)))
    (fun y x hy hx hl => by
      have hb := bandOf_lt_boundary te lo j k (lum.px y x) hjk
        (by rw [← hlab y x hy hx]; exact hl)
      obtain ⟨h1, h2⟩ := addOneSat_bounds lum y x
      exact ⟨(log_sample_bounds _ h1 h2).2.1, log_addOne_mono _ _ (le_of_lt hb)⟩)
  unfold logAverage countDivisor
  generalize Real.log (max (((min (te * (6 - j) + lo + 1) 255 : Nat) : Nat) : ℝ)
      (3 / 1000)) = m at hm0 hj1 hk2
  generalize (accumulate Real.log (addOneSat lum) labels 7).1.getD j 0 = Sj at hj1
  generalize (accumulate Real.log (addOneSat lum) labels 7).1.getD k 0 = Sk at hk1 hk2
  generalize (accumulate Real.log (addOneSat lum) labels 7).2.getD j 0 = cj at hj1 hcount
  generalize (accumulate Real.log (addOneSat lum) labels 7).2.getD k 0 = ck at hk0 hk2 hcount
  have hcj : 0 ≤ cj := le_trans hk0 hcount
  rw [div_le_div_iff₀ (by linarith) (by linarith)]
  have e1 : Sk * (cj + 3 / 1000) ≤ m * ck * (cj + 3 / 1000) :=
    mul_le_mul_of_nonneg_right hk2 (by linarith)
  have e2 : m * cj * (ck + 3 / 1000) ≤ Sj * (ck + 3 / 1000) :=
    mul_le_mul_of_nonneg_right hj1 (by linarith)
  have e3 : m * ck ≤ m * cj := mul_le_mul_of_nonneg_left hcount hm0
  nlinarith

/-- C20 (amended): for a non-empty 8-bit luminance image segmented by `extract`
with seven regions and two bands `j < k`, if band `j` holds at least as many
pixels as band `k` then the gains satisfy `a_j ≤ a_k`. -/
theorem brighter_band_gain_le (lum labels : Mat Nat) (j k : Nat)
    (_hne : 0 < lum.rows * lum.cols)
    (h8 : ∀ y x, y < lum.rows → x < lum.cols → lum.px y x < 256)
    (hex : extractMat lum 7 = some labels) (hjk : j < k) (hk : k < 7)
    (hcount : (accumulate Real.log (addOneSat lum) labels 7).2.getD k 0 ≤
      (accumulate Real.log (addOneSat lum) labels 7).2.getD j 0) :
    gainOf Real.exp (accumulate Real.log (addOneSat lum) labels 7).1
        (accumulate Real.log (addOneSat lum) labels 7).2 j ≤
      gainOf Real.exp (accumulate Real.log (addOneSat lum) labels 7).1
        (accumulate Real.log (addOneSat lum) labels 7).2 k := by
  unfold gainOf
  exact div_le_div_of_nonneg_left (by norm_num) (Real.exp_pos _)
    (Real.exp_le_exp.mpr (logAverage_le_of_brighter lum labels j k h8 hex hjk hk hcount))

theorem exp_five_lt : Real.exp 5 < 246 := by
  have h1 := Real.exp_one_lt_d9
  have h2 : Real.exp 5 = Real.exp 1 ^ 5 := by
    rw [← Real.exp_nat_mul]
    norm_num
  rw [h2]
  calc Real.exp 1 ^ 5 < (2.7182818286 : ℝ) ^ 5 :=
        pow_lt_pow_left₀ h1 (le_of_lt (Real.exp_pos _)) (by norm_num)
    _ < 246 := by norm_num

theorem five_lt_log : 5 < Real.log 246 := by
  rw [Real.lt_log_iff_exp_lt (by norm_num)]
  exact exp_five_lt

theorem log_248_le : Real.log 248 ≤ Real.log 246 + 2 / 246 := by
  have h := Real.log_le_sub_one_of_pos (x := 248 / 246) (by norm_num)
  rw [Real.log_div (by norm_num) (by norm_num)] at h
  linarith

theorem accumulate_fiveSample (labels : Mat Nat)
    (hl : ∀ x, labels.px 0 x = [6, 0, 1, 1, 1].getD x 0) :
    (accumulate Real.log (addOneSat fiveSampleImage) labels 7).1.getD 0 0 = Real.log 248 ∧
    (accumulate Real.log (addOneSat fiveSampleImage) labels 7).2.getD 0 0 = 1 ∧
    (accumulate Real.log (addOneSat fiveSampleImage) labels 7).1.getD 1 0 =
      Real.log 246 + Real.log 246 + Real.log 246 ∧
    (accumulate Real.log (addOneSat fiveSampleImage) labels 7).2.getD 1 0 = 3 := by
  have hp : positions 1 5 = [(0, 0), (0, 1), (0, 2), (0, 3), (0, 4)] := by decide
  rw [accumulate_eq_foldl]
  have e : (addOneSat fiveSampleImage).rows = 1 := rfl
  have e2 : (addOneSat fiveSampleImage).cols = 5 := rfl
  rw [e, e2, hp]
  simp [hl, addOneSat, fiveSampleImage, List.replicate]
  norm_num

/-- C20 as stated is false: on the 1×5 image 240, 247, 245, 245, 245 band 0 holds
the single sample 247 and band 1 the three samples 245; the divisors `count + 0.003`
give the log-averages `ln 248 / 1.003 < 3 ln 246 / 3.003`, so the brighter band 0
gets the larger gain. -/
theorem brighter_band_gain_counterexample : ¬ BrighterBandGainLe fiveSampleImage := by
  rintro ⟨labels, hex, hall⟩
  have hext : extract fiveSampleImage.toList 7 = some [6, 0, 1, 1, 1] := by decide
  have hl : ∀ x, labels.px 0 x = [6, 0, 1, 1, 1].getD x 0 := by
    unfold extractMat at hex
    rw [hext] at hex
    simp only [Option.map_some', Option.some.injEq] at hex
    intro x
    rw [← hex]
    simp [fiveSampleImage]
  have h := hall 0 1 (by decide) (by decide)
    ⟨0, 1, by decide, by decide, by rw [hl]; rfl⟩ ⟨0, 2, by decide, by decide, by rw [hl]; rfl⟩
  obtain ⟨hS0, hC0, hS1, hC1⟩ := accumulate_fiveSample labels hl
  unfold gainOf logAverage countDivisor at h
  rw [hS0, hC0, hS1, hC1] at h
  rw [div_le_div_iff_of_pos_left (by norm_num) (Real.exp_pos _) (Real.exp_pos _), Real.exp_le_exp,
    div_le_div_iff₀ (by norm_num) (by norm_num)] at h
  have h5 := five_lt_log
  have h6 := log_248_le
  linarith


theorem accumulate_twoSample :
    (accumulate Real.log (addOneSat twoSampleImage)
        ⟨1, 2, fun y x => [6, 0].getD (y * 2 + x) 0⟩ 7).2.getD 6 0 = 1 ∧
    (accumulate Real.log (addOneSat twoSampleImage)
        ⟨1, 2, fun y x => [6, 0].getD (y * 2 + x) 0⟩ 7).2.getD 0 0 = 1 := by
  have hp : positions 1 2 = [(0, 0), (0, 1)] := by decide
  rw [accumulate_eq_foldl]
  have e : (addOneSat twoSampleImage).rows = 1 := rfl
  have e2 : (addOneSat twoSampleImage).cols = 2 := rfl
  rw [e, e2, hp]
  simp [addOneSat, twoSampleImage, List.replicate]

/-- Witness for the amended C20: the 1×2 image 100, 107, whose bands 0 and 6 hold
one pixel each. -/
theorem brighter_band_gain_le_witness :
    gainOf Real.exp
        (accumulate Real.log (addOneSat twoSampleImage)
          ⟨1, 2, fun y x => [6, 0].getD (y * 2 + x) 0⟩ 7).1
        (accumulate Real.log (addOneSat twoSampleImage)
          ⟨1, 2, fun y x => [6, 0].getD (y * 2 + x) 0⟩ 7).2 0 ≤
      gainOf Real.exp
        (accumulate Real.log (addOneSat twoSampleImage)
          ⟨1, 2, fun y x => [6, 0].getD (y * 2 + x) 0⟩ 7).1
        (accumulate Real.log (addOneSat twoSampleImage)
          ⟨1, 2, fun y x => [6, 0].getD (y * 2 + x) 0⟩ 7).2 6 :=
  brighter_band_gain_le twoSampleImage ⟨1, 2, fun y x => [6, 0].getD (y * 2 + x) 0⟩ 0 6
    (by decide)
    (by
      intro y x _ hx
      have hx2 : x < 2 := hx
      show [100, 107].getD x 0 < 256
      interval_cases x <;> decide)
    (by
      have hext : extract twoSampleImage.toList 7 = some [6, 0] := by decide
      unfold extractMat
      rw [hext]
      rfl)
    (by decide) (by decide)
    (by rw [accumulate_twoSample.1, accumulate_twoSample.2])

/-! ### `synEFFromJNI`: the uniform gray scenario -/

theorem rpow_ratio_bounds (y lo hi : ℝ) (p q : ℕ) (hy : 0 ≤ y) (hq : 0 < q)
    (hhi0 : 0 ≤ hi) (hlo : lo ^ q < y ^ p) (hhi : y ^ p < hi ^ q) :
    lo < y ^ ((p : ℝ) / (q : ℝ)) ∧ y ^ ((p : ℝ) / (q : ℝ)) < hi := by
  have hx0 : 0 ≤ y ^ ((p : ℝ) / (q : ℝ)) := Real.rpow_nonneg hy _
  have hq' : (q : ℝ) ≠ 0 := by exact_mod_cast (Nat.pos_iff_ne_zero.mp hq)
  have hpow : (y ^ ((p : ℝ) / (q : ℝ))) ^ q = y ^ p := by
    rw [← Real.rpow_natCast (y ^ ((p : ℝ) / (q : ℝ))) q, ← Real.rpow_mul hy,
      div_mul_cancel₀ _ hq', Real.rpow_natCast]
  constructor
  · apply lt_of_pow_lt_pow_left₀ q hx0
    rw [hpow]; exact hlo
  · apply lt_of_pow_lt_pow_left₀ q hhi0
    rw [hpow]; exact hhi

theorem gammaTable_22_128 : LUT (gammaTable Real.rpow (11 / 5 : ℝ)) 128 = 56 := by
  rw [LUT_gammaTable _ _ 128 (by decide)]
  have h := rpow_ratio_bounds (128 / 255) (111 / 510) (113 / 510) 11 5 (by norm_num)
    (by norm_num) (by norm_num) (by norm_num) (by norm_num)
  have h' : (111 / 510 : ℝ) < (128 / 255 : ℝ) ^ ((11 : ℝ) / 5) ∧
      (128 / 255 : ℝ) ^ ((11 : ℝ) / 5) < 113 / 510 := by simpa using h
  have e : Real.rpow (((128 : Nat) : ℝ) / 255) (11 / 5) = (128 / 255 : ℝ) ^ ((11 : ℝ) / 5) := by
    simp only [Real.rpow_eq_pow, Nat.cast_ofNat]
  rw [e, cvRound_of_lt _ 56 (by push_cast; linarith [h'.1]) (by push_cast; linarith [h'.2])]
  rfl

theorem gammaTable_inv22_77 : LUT (gammaTable Real.rpow (1 / (11 / 5) : ℝ)) 77 = 148 := by
  rw [LUT_gammaTable _ _ 77 (by decide)]
  have h := rpow_ratio_bounds (77 / 255) (295 / 510) (297 / 510) 5 11 (by norm_num)
    (by norm_num) (by norm_num) (by norm_num) (by norm_num)
  have h' : (295 / 510 : ℝ) < (77 / 255 : ℝ) ^ ((5 : ℝ) / 11) ∧
      (77 / 255 : ℝ) ^ ((5 : ℝ) / 11) < 297 / 510 := by simpa using h
  have e : Real.rpow (((77 : Nat) : ℝ) / 255) (1 / (11 / 5)) =
      (77 / 255 : ℝ) ^ ((5 : ℝ) / 11) := by
    simp only [Real.rpow_eq_pow, Nat.cast_ofNat]
    norm_num
  rw [e, cvRound_of_lt _ 148 (by push_cast; linarith [h'.1]) (by push_cast; linarith [h'.2])]
  rfl

theorem accumulate_count_all (logf : ℝ → ℝ) (lum labels : Mat Nat) (regions i : Nat)
    (hi : i < regions)
    (hall : ∀ y x, y < lum.rows → x < lum.cols → labels.px y x = i) :
    (accumulate logf lum labels regions).2.getD i 0 = ((lum.rows * lum.cols : Nat) : ℝ) := by
  rw [accumulate_eq_foldl]
  have key : ∀ (ps : List (Nat × Nat)) (s : List ℝ × List ℝ),
      (∀ p ∈ ps, labels.px p.1 p.2 = i) → i < s.2.length →
      (ps.foldl
        (fun s p =>
          (s.1.set (labels.px p.1 p.2)
              (s.1.getD (labels.px p.1 p.2) 0 +
                logf (max ((lum.px p.1 p.2 : Nat) : ℝ) (3 / 1000))),
            s.2.set (labels.px p.1 p.2) (s.2.getD (labels.px p.1 p.2) 0 + 1))) s).2.getD i 0 =
        s.2.getD i 0 + (ps.length : ℝ) := by
    intro ps
    induction ps with
    | nil => intro s _ _; simp
    | cons p t ih =>
      intro s hps hlen
      rw [List.foldl_cons, ih _ (fun q hq => hps q (List.mem_cons_of_mem _ hq))
        (by simp only [length_set_real]; exact hlen)]
      have hp := hps p (List.mem_cons_self _ _)
      simp only [getD_set, hp, hlen, and_self, if_true, List.length_cons]
      push_cast
      ring
  rw [key _ _ (fun p hp => by
      rw [mem_positions] at hp
      exact hall p.1 p.2 hp.1 hp.2) (by simpa using hi)]
  simp [getD_replicate_zero, length_positions]

theorem getD_replicate_zero_nat (n i : Nat) : (List.replicate n (0 : Nat)).getD i 0 = 0 := by
  rw [List.getD_eq_getElem?_getD]
  by_cases h : i < n
  · simp [h]
  · simp [h]

/-- The gains of the uniform 5×5 luminance image of level 56 with all labels 0:
region 0 gets a gain between `0.18 / 57` and `0.18 / 56.5`, every other region
the gain 0.18. -/
theorem gains_uniform56 (labels : Mat Nat) (hl : ∀ y x, labels.px y x = 0) :
    ∃ a0 : ℝ, 18 / 100 / 57 ≤ a0 ∧ a0 ≤ 18 / 100 / (113 / 2) ∧
      gains Real.exp
          (accumulate Real.log (addOneSat ⟨5, 5, fun _ _ => 56⟩) labels 7).1
          (accumulate Real.log (addOneSat ⟨5, 5, fun _ _ => 56⟩) labels 7).2 7 =
        [a0, 18 / 100, 18 / 100, 18 / 100, 18 / 100, 18 / 100, 18 / 100] := by
  have hrange : List.range 7 = [0, 1, 2, 3, 4, 5, 6] := by decide
  have hother : ∀ i, i ≠ 0 →
      gainOf Real.exp (accumulate Real.log (addOneSat ⟨5, 5, fun _ _ => 56⟩) labels 7).1
        (accumulate Real.log (addOneSat ⟨5, 5, fun _ _ => 56⟩) labels 7).2 i = 18 / 100 := by
    intro i hi
    obtain ⟨h1, h2⟩ := accumulate_untouched Real.log (addOneSat ⟨5, 5, fun _ _ => 56⟩)
      labels 7 i (fun y x _ _ => by rw [hl]; exact fun h => hi h.symm)
    unfold gainOf logAverage countDivisor
    rw [h1, h2, zero_div, Real.exp_zero, div_one]
  refine ⟨gainOf Real.exp (accumulate Real.log (addOneSat ⟨5, 5, fun _ _ => 56⟩) labels 7).1
    (accumulate Real.log (addOneSat ⟨5, 5, fun _ _ => 56⟩) labels 7).2 0, ?_, ?_, ?_⟩
  rotate_left 2
  · unfold gains
    rw [hrange]
    simp only [List.map_cons, List.map_nil]
    rw [hother 1 (by decide), hother 2 (by decide), hother 3 (by decide), hother 4 (by decide),
      hother 5 (by decide), hother 6 (by decide)]
  all_goals
    have hc := accumulate_count_all Real.log (addOneSat ⟨5, 5, fun _ _ => 56⟩) labels 7 0
      (by decide) (fun y x _ _ => hl y x)
    have hlog : ∀ y x : Nat, Real.log (max ((((addOneSat ⟨5, 5, fun _ _ => 56⟩).px y x : Nat) : Nat) : ℝ)
        (3 / 1000)) = Real.log 57 := by
      intro y x
      have e : (addOneSat ⟨5, 5, fun _ _ => 56⟩).px y x = 57 := rfl
      rw [e, (log_sample_bounds 57 (by decide) (by decide)).1]
      norm_num
    obtain ⟨_, hs1, hs2⟩ := accumulate_bounds Real.log (addOneSat ⟨5, 5, fun _ _ => 56⟩)
      labels 7 0 (Real.log 57) (Real.log 57)
      (fun y x _ _ _ => ⟨le_of_eq (hlog y x).symm, le_of_eq (hlog y x)⟩)
    have hS : (accumulate Real.log (addOneSat ⟨5, 5, fun _ _ => 56⟩) labels 7).1.getD 0 0 =
        Real.log 57 * (accumulate Real.log (addOneSat ⟨5, 5, fun _ _ => 56⟩) labels 7).2.getD 0 0 :=
      le_antisymm hs2 hs1
    have hrc : (((addOneSat ⟨5, 5, fun _ _ => 56⟩).rows * (addOneSat ⟨5, 5, fun _ _ => 56⟩).cols :
        Nat) : ℝ) = 25 := by
      have : (addOneSat ⟨5, 5, fun _ _ => 56⟩).rows * (addOneSat ⟨5, 5, fun _ _ => 56⟩).cols = 25 := rfl
      rw [this]
      norm_num
    rw [hrc] at hc
    have hL0 : 0 ≤ Real.log 57 := Real.log_nonneg (by norm_num)
    have hL1 : Real.log 57 ≤ 56 := by
      have := Real.log_le_sub_one_of_pos (x := 57) (by norm_num)
      linarith
    have hL2 : Real.log (113 / 2) ≤ Real.log 57 - 1 / 114 := by
      have h := Real.one_sub_inv_le_log_of_pos (x := 57 / (113 / 2)) (by norm_num)
      rw [Real.log_div (by norm_num) (by norm_num)] at h
      norm_num at h ⊢
      linarith
    unfold gainOf logAverage countDivisor
    rw [hS, hc]
  · -- lower bound: exp v ≤ 57
    apply div_le_div_of_nonneg_left (by norm_num) (Real.exp_pos _)
    calc Real.exp (Real.log 57 * 25 / (25 + 3 / 1000))
        ≤ Real.exp (Real.log 57) := by
          apply Real.exp_le_exp.mpr
          rw [div_le_iff₀ (by norm_num)]
          linarith
      _ = 57 := Real.exp_log (by norm_num)
  · -- upper bound: exp v ≥ 56.5
    apply div_le_div_of_nonneg_left (by norm_num) (by norm_num)
    calc (113 / 2 : ℝ) = Real.exp (Real.log (113 / 2)) := (Real.exp_log (by norm_num)).symm
      _ ≤ Real.exp (Real.log 57 * 25 / (25 + 3 / 1000)) := by
          apply Real.exp_le_exp.mpr
          rw [le_div_iff₀ (by norm_num)]
          linarith

/-- The tone map of one region on the uniform luminance 56, as a number. -/
theorem toneMap_uniform56 (a : ℝ) :
    toneMap ⟨100, 100, fun _ _ => 56⟩ (scaled ⟨100, 100, fun _ _ => 56⟩ a) =
      some (fun _ _ =>
        (56 * a / (56 * a + 1) * (56 * a * (1 / (56 * a)) + 1)) / (56 + 3 / 1000)) := by
  unfold toneMap
  have hmax : matMax (K := ℝ) 100 100 (scaled ⟨100, 100, fun _ _ => 56⟩ a) = some (56 * a) :=
    matMax_const 100 100 _ (56 * a) (by decide) (fun y x => by simp [scaled])
  simp only [hmax, Option.map_some']
  simp [scaled]

theorem synthesise_uniform56 (g t : ℝ) :
    synthesise Real.rpow (uniformImage 100 100 56) g (fun _ _ => t) =
      uniformImage 100 100
        (LUT (gammaTable Real.rpow (1 / g)) (saturate_uchar (cvRound (56 * t * 255)))) := by
  unfold synthesise gamma uniformImage
  simp [Vec3.map]

theorem toneValue_region0 (a : ℝ) (h1 : 18 / 100 / 57 ≤ a) (h2 : a ≤ 18 / 100 / (113 / 2)) :
    cvRound (56 * ((56 * a / (56 * a + 1) * (56 * a * (1 / (56 * a)) + 1)) / (56 + 3 / 1000)) *
      255) = 77 := by
  have ha : 0 < a := lt_of_lt_of_le (by norm_num) h1
  have hE : (56 * a) * (1 / (56 * a)) = 1 := by field_simp
  have e : 56 * ((56 * a / (56 * a + 1) * (56 * a * (1 / (56 * a)) + 1)) / (56 + 3 / 1000)) *
      255 = 1599360 * a / ((56 * a + 1) * (56 + 3 / 1000)) := by
    rw [hE]
    field_simp
    ring
  rw [e]
  have h2' : a ≤ 36 / 11300 := by norm_num at h2; linarith
  have h1' : 18 / 5700 ≤ a := by norm_num at h1; linarith
  apply cvRound_of_lt
  · rw [lt_div_iff₀ (by positivity)]
    push_cast
    nlinarith
  · rw [div_lt_iff₀ (by positivity)]
    push_cast
    nlinarith

theorem toneValue_empty_region :
    saturate_uchar (cvRound (56 * ((56 * (18 / 100 : ℝ) / (56 * (18 / 100) + 1) *
      (56 * (18 / 100) * (1 / (56 * (18 / 100))) + 1)) / (56 + 3 / 1000)) * 255)) = 255 := by
  rw [cvRound_of_lt _ 464 (by norm_num) (by norm_num)]
  rfl

theorem gamma_uniform (pw : ℝ → ℝ → ℝ) (rows cols v : Nat) (g : ℝ) :
    gamma pw (uniformImage rows cols v) g =
      uniformImage rows cols (LUT (gammaTable pw g) v) := rfl

theorem extractMat_uniform56 :
    ∃ labels, extractMat ⟨5, 5, fun _ _ => 56⟩ 7 = some labels ∧ ∀ y x, labels.px y x = 0 := by
  have hext : extract (Mat.toList ⟨5, 5, fun _ _ => 56⟩) 7 = some (List.replicate 25 0) := by
    decide
  refine ⟨_, by unfold extractMat; rw [hext]; rfl, ?_⟩
  intro y x
  exact getD_replicate_zero_nat _ _

/-- The stack of the uniform gray scenario: the first synthetic exposure is
uniform at level 148, the six exposures of the empty regions are saturated at
255, and the last element is the gamma-corrected input at level 56. -/
theorem synEFFromJNI_uniform128 (resize : Mat (Vec3 Nat) → Mat (Vec3 Nat))
    (luma : Vec3 Nat → Nat)
    (hres : ∀ v, resize (uniformImage 100 100 v) = uniformImage 5 5 v)
    (hluma : ∀ v, luma ⟨v, v, v⟩ = v) :
    ∃ r, synEFFromJNI Real.rpow Real.exp Real.log resize luma (uniformImage 100 100 128)
          (11 / 5) = some r ∧
      r.pme = [uniformImage 100 100 148, uniformImage 100 100 255, uniformImage 100 100 255,
        uniformImage 100 100 255, uniformImage 100 100 255, uniformImage 100 100 255,
        uniformImage 100 100 255, uniformImage 100 100 56] := by
  have hg : gamma Real.rpow (uniformImage 100 100 128) (11 / 5) = uniformImage 100 100 56 := by
    rw [gamma_uniform, gammaTable_22_128]
  have hlum5 : lumaChannel luma (uniformImage 5 5 56) = ⟨5, 5, fun _ _ => 56⟩ := by
    unfold lumaChannel uniformImage
    simp only [hluma]
  have hlum100 : lumaChannel luma (uniformImage 100 100 56) = ⟨100, 100, fun _ _ => 56⟩ := by
    unfold lumaChannel uniformImage
    simp only [hluma]
  obtain ⟨labels, hex, hl⟩ := extractMat_uniform56
  obtain ⟨a0, h1, h2, hgains⟩ := gains_uniform56 labels hl
  unfold synEFFromJNI
  simp only [hg, hres, hlum5, hlum100, hex]
  rw [hgains]
  simp only [List.map_cons, List.map_nil, toneMapAll, toneMap_uniform56]
  refine ⟨_, rfl, ?_⟩
  simp only [List.map_cons, List.map_nil, synthesise_uniform56, toneValue_region0 a0 h1 h2,
    toneValue_empty_region, List.cons_append, List.nil_append]
  have e77 : saturate_uchar 77 = 77 := rfl
  rw [e77, gammaTable_inv22_77, gammaTable_rpow_top]


theorem downsample20_uniform (v : Nat) :
    downsample20 (uniformImage 100 100 v) = uniformImage 5 5 v := by
  simp [downsample20, uniformImage]

theorem lumaY_gray (v : Nat) : lumaY ⟨v, v, v⟩ = v := by
  unfold lumaY
  simp only
  omega

/-- C15 as stated is false: on the 100×100 uniform image of level 128 with
`g = 2.2` the stack holds exposures saturated at 255, which are not within 10 of
128. -/
theorem uniform_gray_stack_not_close : ¬ UniformGrayStackClose downsample20 lumaY := by
  rintro ⟨r, hr, _, hclose⟩
  obtain ⟨r', hr', hpme⟩ := synEFFromJNI_uniform128 downsample20 lumaY downsample20_uniform
    lumaY_gray
  rw [hr] at hr'
  have e : r = r' := Option.some.inj hr'
  subst e
  have hmem : uniformImage 100 100 255 ∈ r.pme := by
    rw [hpme]
    simp
  have h := hclose _ hmem 0 0 (by decide) (by decide)
  simp only [ChannelsWithin, uniformImage] at h
  omega

/-- C15 (amended): on the 100×100 uniform image of level 128 with `g = 2.2`
(resizing and luma extraction keeping a uniform gray image uniform at its level)
the stack has 8 elements and its seven synthetic exposures are uniform: the
exposure of the one populated band at level 148, the six exposures of the empty
bands saturated at 255. -/
theorem uniform_gray_stack (resize : Mat (Vec3 Nat) → Mat (Vec3 Nat))
    (luma : Vec3 Nat → Nat)
    (hres : ∀ v, resize (uniformImage 100 100 v) = uniformImage 5 5 v)
    (hluma : ∀ v, luma ⟨v, v, v⟩ = v) :
    ∃ r, synEFFromJNI Real.rpow Real.exp Real.log resize luma (uniformImage 100 100 128)
          (11 / 5) = some r ∧
      r.pme.length = 8 ∧
      r.pme.take 7 = [uniformImage 100 100 148, uniformImage 100 100 255,
        uniformImage 100 100 255, uniformImage 100 100 255, uniformImage 100 100 255,
        uniformImage 100 100 255, uniformImage 100 100 255] := by
  obtain ⟨r, hr, hpme⟩ := synEFFromJNI_uniform128 resize luma hres hluma
  refine ⟨r, hr, ?_, ?_⟩
  · rw [hpme]
    rfl
  · rw [hpme]
    rfl

/-- Witness for the amended C15 with the stand-ins for resizing and luma
extraction. -/
theorem uniform_gray_stack_witness :
    ∃ r, synEFFromJNI Real.rpow Real.exp Real.log downsample20 lumaY
          (uniformImage 100 100 128) (11 / 5) = some r ∧
      r.pme.length = 8 ∧
      r.pme.take 7 = [uniformImage 100 100 148, uniformImage 100 100 255,
        uniformImage 100 100 255, uniformImage 100 100 255, uniformImage 100 100 255,
        uniformImage 100 100 255, uniformImage 100 100 255] :=
  uniform_gray_stack downsample20 lumaY downsample20_uniform lumaY_gray

end SynEF
